import Mathlib

/-!
Verification of the sentiment-analysis service against its specification.

The repository contains two Python variants of the service:
* variant A: `src/src/analyzers/sentiment/python/` (analyzer.py, preprocessor.py,
  main.py, models.py, config.py);
* variant B: `src/python-services/sentiment-analyzer/` (sentiment_analyzer.py, main.py).

The pretrained ML models (FinBERT classifier, spaCy NER) and the NLTK/spaCy
tokenizers are external collaborators: they appear below as parameters
(probability triples, span lists, token lists, or fallible analysis oracles),
while every piece of deterministic post-processing logic is embedded from the
source.  Floats are modelled as rationals; Python exceptions as `Option` or
`Except` values.
-/

/-- Impact levels returned as the strings "low", "medium", "high" by both
variants of `calculate_impact`; embedded as an enumeration. -/
inductive ImpactLevel
  | low
  | medium
  | high
deriving DecidableEq, Repr

/-- Numeric rank of an impact level, with low < medium < high. -/
def ImpactLevel.rank : ImpactLevel → Nat
  | .low => 0
  | .medium => 1
  | .high => 2

/-- Ordering of impact levels by rank. -/
def ImpactLevel.le (a b : ImpactLevel) : Prop := a.rank ≤ b.rank

instance : DecidablePred fun p : ImpactLevel × ImpactLevel => ImpactLevel.le p.1 p.2 :=
  fun p => Nat.decLe p.1.rank p.2.rank

/-- Sentiment labels produced by variant A's `classify_sentiment`. -/
inductive Label
  | positive
  | negative
  | neutral
deriving DecidableEq, Repr

/-! ## Variant B: `_map_entity_type` (sentiment_analyzer.py, lines 170-196) -/

/-- `self.crypto_keywords` from `SentimentAnalyzer.__init__` in
sentiment_analyzer.py (a Python set; listed here in written order). -/
def crypto_keywords : List String :=
  ["bitcoin", "btc", "ethereum", "eth", "cryptocurrency", "crypto",
   "binance", "coinbase", "blockchain", "defi", "nft", "web3",
   "solana", "sol", "cardano", "ada", "ripple", "xrp", "dogecoin",
   "doge", "polkadot", "dot", "avalanche", "avax", "polygon", "matic",
   "litecoin", "ltc", "chainlink", "link", "uniswap", "uni",
   "usdt", "usdc", "stablecoin", "altcoin", "token", "coin"]

/-- Substring containment on character lists: Python's `needle in hay`. -/
def listContainsSub (hay needle : List Char) : Bool :=
  (List.range (hay.length + 1)).any fun i => (hay.drop i).take needle.length == needle

/-- Python `any(exchange in text for exchange in ['binance','coinbase','kraken','bybit'])`
from `_map_entity_type`. -/
def hasExchangeName (text : String) : Bool :=
  ["binance", "coinbase", "kraken", "bybit"].any fun e =>
    listContainsSub text.toList e.toList

/-- `SentimentAnalyzer._map_entity_type` (sentiment_analyzer.py): maps a spaCy
label plus the lowercased span text to the internal entity type. -/
def map_entity_type (spacy_label : String) (text : String) : String :=
  if text ∈ crypto_keywords then "cryptocurrency"
  else if spacy_label = "PERSON" then "person"
  else if spacy_label = "ORG" then
    if hasExchangeName text then "exchange" else "company"
  else if spacy_label = "PRODUCT" then "cryptocurrency"
  else "organization"

/-! ## Variant A: `calculate_impact` (analyzer.py, lines 160-204) -/

/-- `WEIGHT_SENTIMENT` default from config.py. -/
def WEIGHT_SENTIMENT : ℚ := 2/5

/-- `WEIGHT_ENTITIES` default from config.py. -/
def WEIGHT_ENTITIES : ℚ := 3/10

/-- `WEIGHT_KEYWORDS` default from config.py. -/
def WEIGHT_KEYWORDS : ℚ := 3/10

/-- `HIGH_IMPACT_KEYWORDS` from config.py. -/
def HIGH_IMPACT_KEYWORDS : List String :=
  ["crash", "surge", "pump", "dump", "hack", "regulation",
   "ban", "approved", "etf", "adoption", "partnership",
   "launch", "upgrade", "fork", "halving", "attack"]

/-- ASCII lowercase, embedding Python's `str.lower()` on the ASCII inputs
used throughout the service. -/
def pyLower (s : String) : String := String.mk (s.toList.map Char.toLower)

/-- Number of high-impact keywords occurring as substrings of the lowercased
text (`sum(1 for keyword in HIGH_IMPACT_KEYWORDS if keyword in text_lower)`). -/
def countHighImpact (text : String) : Nat :=
  (HIGH_IMPACT_KEYWORDS.filter fun k =>
    listContainsSub (pyLower text).toList k.toList).length

/-- `SentimentAnalyzer.calculate_impact` from variant A's analyzer.py:
weighted sum of sentiment intensity, entity-count score and high-impact
keyword score, bucketed at 0.7 and 0.4.  The `keywords` argument is accepted
and unused, exactly as in the source. -/
def calculate_impact (text : String) (sentiment_score : ℚ)
    (entities keywords : List String) : ImpactLevel :=
  let sentiment_intensity := |sentiment_score|
  let entity_score := min ((entities.length : ℚ) / 5) 1
  let keyword_score := min ((countHighImpact text : ℚ) / 3) 1
  let impact_score := sentiment_intensity * WEIGHT_SENTIMENT
    + entity_score * WEIGHT_ENTITIES + keyword_score * WEIGHT_KEYWORDS
  if impact_score ≥ 7/10 then .high
  else if impact_score ≥ 2/5 then .medium
  else .low

/-! ## Variant B: `calculate_impact` (sentiment_analyzer.py, lines 198-242) -/

/-- Offset-bearing entity record built by variant B's `extract_entities`
(the source field `end` is called `endPos` here because `end` is a Lean
keyword). -/
structure EntityInfo where
  text : String
  type : String
  start : Nat
  endPos : Nat
deriving DecidableEq, Repr

/-- `self.high_impact_keywords` from sentiment_analyzer.py. -/
def high_impact_keywords : List String :=
  ["hack", "breach", "crash", "surge", "skyrocket", "plunge",
   "collapse", "approval", "regulation", "ban", "adoption",
   "partnership", "launch", "etf", "sec", "breaking", "alert"]

/-- `self.medium_impact_keywords` from sentiment_analyzer.py. -/
def medium_impact_keywords : List String :=
  ["rise", "fall", "gain", "loss", "growth", "decline",
   "update", "upgrade", "development", "announce", "report"]

/-- Variant B `SentimentAnalyzer.calculate_impact`: integer points — 3 per
high-impact keyword in the lowercased text, 1 per medium-impact keyword,
2/1/0 from sentiment magnitude (brackets 0.7 and 0.4), 2/1/0 from the number
of cryptocurrency-typed entities (brackets 3 and 1) — bucketed at 5 and 2. -/
def calculate_impact2 (text : String) (sentiment : ℚ)
    (entities : List EntityInfo) : ImpactLevel :=
  let tl := (pyLower text).toList
  let highHits := (high_impact_keywords.filter fun k =>
    listContainsSub tl k.toList).length
  let medHits := (medium_impact_keywords.filter fun k =>
    listContainsSub tl k.toList).length
  let sentPts : Nat := if |sentiment| > 7/10 then 2 else if |sentiment| > 2/5 then 1 else 0
  let cryptoCount := (entities.filter fun e => e.type == "cryptocurrency").length
  let entPts : Nat := if cryptoCount ≥ 3 then 2 else if cryptoCount ≥ 1 then 1 else 0
  let score := 3 * highHits + medHits + sentPts + entPts
  if score ≥ 5 then .high
  else if score ≥ 2 then .medium
  else .low

/-! ## Theorems for C7 and C8 -/

/-- C7: for every NER span kept by variant B's entity extractor, the internal
type follows the fixed mapping — a span whose lowercased text is itself a
known crypto term is always typed cryptocurrency, overriding the NER label;
otherwise PERSON maps to person, ORG maps to exchange when the text matches
the fixed exchange list and to company otherwise, and PRODUCT maps to
cryptocurrency. -/
theorem map_entity_type_follows_fixed_mapping :
    (∀ lab t, t ∈ crypto_keywords → map_entity_type lab t = "cryptocurrency")
    ∧ (∀ t, t ∉ crypto_keywords → map_entity_type "PERSON" t = "person")
    ∧ (∀ t, t ∉ crypto_keywords →
        map_entity_type "ORG" t = if hasExchangeName t then "exchange" else "company")
    ∧ (∀ t, map_entity_type "PRODUCT" t = "cryptocurrency") := by
  refine ⟨?_, ?_, ?_, ?_⟩
  · intro lab t ht
    simp [map_entity_type, ht]
  · intro t ht
    simp [map_entity_type, ht]
  · intro t ht
    simp [map_entity_type, ht]
  · intro t
    by_cases ht : t ∈ crypto_keywords <;> simp [map_entity_type, ht]

/-- Witness for C7: the mapping evaluated at concrete spans — an ORG span
containing "kraken" is an exchange, and a PERSON-tagged span whose text is
the crypto term "binance" is overridden to cryptocurrency. -/
theorem map_entity_type_follows_fixed_mapping_witness :
    map_entity_type "ORG" "kraken global" = "exchange"
    ∧ map_entity_type "PERSON" "binance" = "cryptocurrency" := by
  constructor
  · exact (map_entity_type_follows_fixed_mapping.2.2.1 "kraken global"
      (by decide)).trans (by decide)
  · exact map_entity_type_follows_fixed_mapping.1 "PERSON" "binance" (by decide)

/-- Bucketing of the variant A weighted score is monotone. -/
theorem impactLevel_of_score_mono {q1 q2 : ℚ} (h : q1 ≤ q2) :
    ImpactLevel.le
      (if q1 ≥ 7/10 then .high else if q1 ≥ 2/5 then .medium else .low)
      (if q2 ≥ 7/10 then .high else if q2 ≥ 2/5 then .medium else .low) := by
  unfold ImpactLevel.le
  split_ifs <;> simp [ImpactLevel.rank] <;> linarith

/-- Bucketing of the variant B integer score is monotone. -/
theorem impactLevel_of_points_mono {n1 n2 : Nat} (h : n1 ≤ n2) :
    ImpactLevel.le
      (if n1 ≥ 5 then .high else if n1 ≥ 2 then .medium else .low)
      (if n2 ≥ 5 then .high else if n2 ≥ 2 then .medium else .low) := by
  unfold ImpactLevel.le
  split_ifs <;> simp [ImpactLevel.rank] <;> omega

/-- C8: impact monotonicity.  Holding the text, the entity list and the
keyword list fixed, a sentiment of no greater magnitude never produces a
strictly higher impact level, in the variant A weighted-sum scorer and in the
variant B integer-point scorer alike. -/
theorem calculate_impact_monotone_in_sentiment
    (text : String) (entities keywords : List String)
    (entities2 : List EntityInfo) (s1 s2 : ℚ) (h : |s1| ≤ |s2|) :
    ImpactLevel.le (calculate_impact text s1 entities keywords)
      (calculate_impact text s2 entities keywords)
    ∧ ImpactLevel.le (calculate_impact2 text s1 entities2)
      (calculate_impact2 text s2 entities2) := by
  constructor
  · unfold calculate_impact
    apply impactLevel_of_score_mono
    have hw : (0 : ℚ) < WEIGHT_SENTIMENT := by norm_num [WEIGHT_SENTIMENT]
    nlinarith [mul_le_mul_of_nonneg_right h (le_of_lt hw)]
  · unfold calculate_impact2
    apply impactLevel_of_points_mono
    have hpts : (if |s1| > 7/10 then 2 else if |s1| > 2/5 then 1 else 0 : Nat)
        ≤ (if |s2| > 7/10 then 2 else if |s2| > 2/5 then 1 else 0) := by
      split_ifs <;> first | omega | linarith
    exact Nat.add_le_add (Nat.add_le_add le_rfl hpts) le_rfl

/-- Witness for C8: the monotonicity theorem applied at sentiments 0.1 and
0.9 on a concrete text. -/
theorem calculate_impact_monotone_in_sentiment_witness :
    ImpactLevel.le (calculate_impact "bitcoin crash" (1/10) ["BTC"] [])
      (calculate_impact "bitcoin crash" (9/10) ["BTC"] [])
    ∧ ImpactLevel.le (calculate_impact2 "bitcoin crash" (1/10) [])
      (calculate_impact2 "bitcoin crash" (9/10) []) :=
  calculate_impact_monotone_in_sentiment "bitcoin crash" ["BTC"] [] [] (1/10) (9/10)
    (by rw [abs_of_pos (by norm_num : (0:ℚ) < 1/10),
            abs_of_pos (by norm_num : (0:ℚ) < 9/10)]; norm_num)

/-! ## Variant A: `classify_sentiment` (analyzer.py, lines 59-116)

The FinBERT model is the external boundary: it is represented by its output
probability triple (index 0 positive, 1 negative, 2 neutral, as the source
comments state).  The embedded code is the post-processing: first-maximum
argmax (as `torch.argmax`), confidence = winning probability, sentiment =
`probs[0] - probs[1]` in each of the three branches, then clamped to [-1,1]. -/

/-- A FinBERT output distribution: `probs_list = [positive, negative, neutral]`. -/
structure Probs where
  pos : ℚ
  neg : ℚ
  neut : ℚ
deriving DecidableEq, Repr

/-- First-maximum index of the probability triple, as `torch.argmax` over
`[pos, neg, neut]` (index of the first maximal value). -/
def argmax3 (p : Probs) : Fin 3 :=
  if p.neg > p.pos then (if p.neut > p.neg then 2 else 1)
  else (if p.neut > p.pos then 2 else 0)

/-- Variant A `SentimentAnalyzer.classify_sentiment` post-processing: returns
(sentiment_score, confidence, label).  The three `if max_prob_idx` branches
each compute `probs_list[0] - probs_list[1]`, as in the source, and the score
is then clamped by `max(-1.0, min(1.0, sentiment_score))`. -/
def classify_sentiment (p : Probs) : ℚ × ℚ × Label :=
  let idx := argmax3 p
  let confidence := if idx = 0 then p.pos else if idx = 1 then p.neg else p.neut
  let sentiment_score :=
    if idx = 0 then p.pos - p.neg
    else if idx = 1 then p.pos - p.neg
    else p.pos - p.neg
  let label := if idx = 0 then Label.positive else if idx = 1 then Label.negative
    else Label.neutral
  (max (-1) (min 1 sentiment_score), confidence, label)

/-! ## Variant B: `classify_sentiment` (sentiment_analyzer.py, lines 85-128)

The transformers pipeline is the external boundary: it is represented by its
result list of (label, score) pairs.  The embedded code is the
post-processing: `max(results, key=lambda x: x['score'])` (first maximal
element), label lowercased, `sentiment_map` lookup with default 0, and the
multiplication by confidence for non-neutral labels. -/

/-- Python `max(results, key=...)`: the first element with maximal score
(later elements replace the current best only when strictly greater). -/
def maxByScore : List (String × ℚ) → Option (String × ℚ)
  | [] => none
  | x :: xs => some (xs.foldl (fun b a => if a.2 > b.2 then a else b) x)

/-- `sentiment_map.get(label, 0.0)` from variant B. -/
def sentiment_map (label : String) : ℚ :=
  if label = "positive" then 1 else if label = "negative" then -1 else 0

/-- Variant B `SentimentAnalyzer.classify_sentiment` post-processing:
`none` corresponds to `max()` raising on an empty result list. -/
def classify_sentiment2 (results : List (String × ℚ)) : Option (ℚ × ℚ × String) :=
  match maxByScore results with
  | none => none
  | some m =>
    let label := pyLower m.1
    let confidence := m.2
    let s0 := sentiment_map label
    let sentiment := if label ≠ "neutral" then s0 * confidence else s0
    some (sentiment, confidence, label)

/-- C1 counterexample: variant B at the distribution
P(positive)=0.5, P(negative)=0.3, P(neutral)=0.2 returns sentiment 0.5 —
exactly +confidence — while the clamped probability margin is 0.2, so the
claim that the score always equals the margin and is never simply
±confidence is false for variant B's `classify_sentiment`. -/
theorem classify_sentiment2_not_margin :
    classify_sentiment2 [("positive", 1/2), ("negative", 3/10), ("neutral", 1/5)]
      = some (1/2, 1/2, "positive")
    ∧ (1/2 : ℚ) ≠ max (-1) (min 1 (1/2 - 3/10)) := by
  constructor
  · have hmx : maxByScore [("positive", 1/2), ("negative", 3/10), ("neutral", 1/5)]
        = some ("positive", 1/2) := by
      simp only [maxByScore, List.foldl]
      norm_num
    unfold classify_sentiment2
    rw [hmx]
    have hpl : pyLower "positive" = "positive" := by rfl
    simp only [hpl]
    rw [if_pos (by decide : ("positive" : String) ≠ "neutral")]
    rw [show sentiment_map "positive" = 1 from by simp [sentiment_map]]
    norm_num
  · intro hc
    rw [show min (1 : ℚ) (1/2 - 3/10) = 1/5 by norm_num [min_def],
        show max (-1 : ℚ) (1/5) = 1/5 by norm_num [max_def]] at hc
    norm_num at hc

/-- C1 amended: variant A's `classify_sentiment` does return the probability
margin P(positive) − P(negative) clamped to [-1,1] regardless of which label
won, and a neutral label can carry nonzero sentiment there; variant B's
`classify_sentiment` instead returns sign(label) × confidence — in
particular 0 whenever the winning label is neutral, confidence itself for
positive and −confidence for negative. -/
theorem classify_sentiment_margin_vs_confidence :
    (∀ p : Probs, (classify_sentiment p).1 = max (-1) (min 1 (p.pos - p.neg)))
    ∧ ((classify_sentiment ⟨3/10, 1/5, 1/2⟩).2.2 = Label.neutral
        ∧ (classify_sentiment ⟨3/10, 1/5, 1/2⟩).1 ≠ 0)
    ∧ (∀ rs q c l, classify_sentiment2 rs = some (q, c, l) →
        (l = "neutral" → q = 0) ∧ (l = "positive" → q = c) ∧ (l = "negative" → q = -c)) := by
  have hidx : argmax3 ⟨3/10, 1/5, 1/2⟩ = 2 := by
    unfold argmax3
    norm_num
  refine ⟨?_, ⟨?_, ?_⟩, ?_⟩
  · intro p
    dsimp only [classify_sentiment]
    split_ifs <;> rfl
  · dsimp only [classify_sentiment]
    rw [hidx]
    rfl
  · dsimp only [classify_sentiment]
    rw [hidx]
    norm_num [max_def, min_def]
  · intro rs q c l hmap
    unfold classify_sentiment2 at hmap
    cases hmx : maxByScore rs with
    | none => rw [hmx] at hmap; exact absurd hmap (by simp)
    | some m =>
      rw [hmx] at hmap
      simp only [Option.some.injEq, Prod.mk.injEq] at hmap
      obtain ⟨hq, hc, hl⟩ := hmap
      refine ⟨?_, ?_, ?_⟩
      · intro hneut
        have hL : pyLower m.1 = "neutral" := hl.trans hneut
        rw [hL, if_neg (by simp)] at hq
        rw [← hq]
        decide
      · intro hpos
        have hL : pyLower m.1 = "positive" := hl.trans hpos
        rw [hL, if_pos (by decide)] at hq
        rw [← hq, ← hc, show sentiment_map "positive" = 1 from by decide, one_mul]
      · intro hneg
        have hL : pyLower m.1 = "negative" := hl.trans hneg
        rw [hL, if_pos (by decide)] at hq
        rw [← hq, ← hc, show sentiment_map "negative" = -1 from by decide]
        ring

/-! ## Variant A endpoints (main.py, lines 103-117 and 142-160)

The handlers are embedded as functions of the readiness flag and of the
outcome of the analysis call (the ML pipeline being the external boundary;
`none` models `analyzer.analyze` raising an exception).  Python exceptions
are modelled by an `Except` over an exception type: `HTTPException` carries a
status code and detail, and `fastapi.HTTPException` derives from `Exception`,
so the handlers' blanket `except Exception` clause catches the
`HTTPException(503)` raised inside the `try` block as well. -/

/-- A Python exception value as seen by the handlers: an `HTTPException`
with status and detail, or any other exception with a message. -/
inductive PyExn
  | http (status : Nat) (detail : String)
  | generic (msg : String)
deriving DecidableEq, Repr

/-- `str(e)` for the two exception shapes (Starlette renders an
`HTTPException` as "status: detail"). -/
def pyExnStr : PyExn → String
  | .http s d => toString s ++ ": " ++ d
  | .generic m => m

/-- An HTTP response: a 200 payload or an error status with detail. -/
inductive ApiResponse (α : Type)
  | ok (value : α)
  | httpError (status : Nat) (detail : String)
deriving DecidableEq, Repr

/-- Status code of a response (FastAPI returns 200 for a plain return). -/
def ApiResponse.statusCode : ApiResponse α → Nat
  | .ok _ => 200
  | .httpError s _ => s

/-- The result dictionary returned by variant A's `SentimentAnalyzer.analyze`. -/
structure AnalyzeResult where
  sentiment : ℚ
  confidence : ℚ
  label : Label
  entities : List String
  impact : ImpactLevel
  keywords : List String
deriving DecidableEq, Repr

/-- Body of the `try` block of variant A's `/analyze` handler: raise
`HTTPException(503, ...)` when models are not loaded, otherwise return the
analysis result (or propagate the exception the analysis raised). -/
def analyze_text_try (models_loaded : Bool) (analysis : Option AnalyzeResult) :
    Except PyExn AnalyzeResult :=
  if !models_loaded then
    .error (.http 503 "Models are still loading. Please try again in a few moments.")
  else
    match analysis with
    | some r => .ok r
    | none => .error (.generic "analysis raised")

/-- Variant A `/analyze` handler (`analyze_text` in main.py): the whole try
body runs under `except Exception as e: raise HTTPException(500,
f"Analysis failed: {str(e)}")`. -/
def analyze_text_endpoint (models_loaded : Bool) (analysis : Option AnalyzeResult) :
    ApiResponse AnalyzeResult :=
  match analyze_text_try models_loaded analysis with
  | .ok r => .ok r
  | .error e => .httpError 500 ("Analysis failed: " ++ pyExnStr e)

/-- Body of the `try` block of variant A's `/analyze/batch` handler. -/
def analyze_batch_try (models_loaded : Bool) (results : Option (List AnalyzeResult)) :
    Except PyExn (List AnalyzeResult) :=
  if !models_loaded then
    .error (.http 503 "Models are still loading. Please try again in a few moments.")
  else
    match results with
    | some rs => .ok rs
    | none => .error (.generic "batch analysis raised")

/-- Variant A `/analyze/batch` handler (`analyze_batch` in main.py), with its
own `except Exception` clause mapping every exception to a 500. -/
def analyze_batch_endpoint (models_loaded : Bool)
    (results : Option (List AnalyzeResult)) : ApiResponse (List AnalyzeResult) :=
  match analyze_batch_try models_loaded results with
  | .ok rs => .ok rs
  | .error e => .httpError 500 ("Batch analysis failed: " ++ pyExnStr e)

/-- C3: the not-ready gate is broken in variant A's handlers.  The
`HTTPException(503)` raised inside the `try` block is caught by the blanket
`except Exception` clause and re-raised as a 500, so a request arriving
before model loading completes receives status 500 on both endpoints —
exactly the status of the generic internal-error response — and is therefore
not distinguishable by status from an unexpected internal failure. -/
theorem not_ready_requests_get_generic_500 :
    (∀ a, (analyze_text_endpoint false a).statusCode = 500)
    ∧ (∀ rs, (analyze_batch_endpoint false rs).statusCode = 500)
    ∧ (analyze_text_endpoint true none).statusCode = 500
    ∧ (analyze_text_endpoint false none
        = .httpError 500
            "Analysis failed: 503: Models are still loading. Please try again in a few moments.") := by
  refine ⟨fun a => rfl, fun rs => rfl, rfl, rfl⟩

/-! ## Batch orchestration (C2)

Variant B's `/batch` handler (python-services main.py, lines 121-166)
isolates per-item failures; variant A's `SentimentAnalyzer.analyze_batch`
(analyzer.py, lines 241-252) is a bare list comprehension through which an
exception propagates.  The per-item `analyzer.analyze` call is the external
boundary, modelled as a fallible oracle.  The `processing_time` response
field measures wall-clock time and is outside the embedding. -/

/-- One request of variant B's `/batch` body (`AnalyzeRequest` in
python-services main.py). -/
structure AnalyzeReq where
  text : String
  type : Option String
deriving DecidableEq, Repr

/-- Variant B response record (without the wall-clock `processing_time`). -/
structure AnalyzeResponseB where
  sentiment : ℚ
  confidence : ℚ
  label : String
  entities : List EntityInfo
  impact : ImpactLevel
  keywords : List String
deriving DecidableEq, Repr

/-- The neutral placeholder appended by variant B's `/batch` handler when a
single item's analysis raises. -/
def neutralPlaceholder : AnalyzeResponseB :=
  { sentiment := 0, confidence := 0, label := "neutral",
    entities := [], impact := .low, keywords := [] }

/-- Variant B `/batch` handler (`batch_analyze` in python-services main.py):
rejects an empty list and more than 100 items with a 400, then analyzes each
item, substituting `neutralPlaceholder` for items whose analysis raises. -/
def batch_analyze_endpoint (f : AnalyzeReq → Option AnalyzeResponseB)
    (requests : List AnalyzeReq) : ApiResponse (List AnalyzeResponseB) :=
  if requests.length = 0 then .httpError 400 "Request list cannot be empty"
  else if requests.length > 100 then .httpError 400 "Maximum 100 texts per batch"
  else .ok (requests.map fun req =>
    match f req with
    | some r => r
    | none => neutralPlaceholder)

/-- Variant A `SentimentAnalyzer.analyze_batch`: the list comprehension
`[self.analyze(text, content_type) for text in texts]`, evaluated left to
right, through which the first exception propagates (`none`). -/
def analyze_batch (f : String → Option AnalyzeResult) :
    List String → Option (List AnalyzeResult)
  | [] => some []
  | t :: ts =>
    match f t with
    | none => none
    | some r =>
      match analyze_batch f ts with
      | none => none
      | some rs => some (r :: rs)

/-- C2 counterexample: in variant A a failing item aborts the whole batch —
`analyze_batch` returns no result list at all (the exception propagates to
the endpoint, which turns it into a 500), rather than a list of the input's
length with a placeholder in the failed slot. -/
theorem analyze_batch_aborts_on_item_failure :
    analyze_batch (fun t => if t = "boom" then none
      else some ⟨0, 1, Label.neutral, [], .low, []⟩) ["good", "boom", "also good"]
      = none := by
  rfl

/-- C2 amended: variant B's `/batch` endpoint isolates per-item failures —
for every accepted batch (nonempty, at most 100 items) it returns a 200 list
of exactly the input's length and order in which every failed item's slot
holds the neutral placeholder (sentiment 0, confidence 0, label neutral, no
entities, no keywords, impact low) and every successful item's slot holds
its result; variant A's `analyze_batch`, by contrast, propagates any item's
failure, aborting the whole batch. -/
theorem batch_failure_isolation (f : AnalyzeReq → Option AnalyzeResponseB)
    (requests : List AnalyzeReq) (hne : requests ≠ [])
    (hlen : requests.length ≤ 100) :
    (batch_analyze_endpoint f requests
      = .ok (requests.map fun req =>
          match f req with
          | some r => r
          | none => neutralPlaceholder))
    ∧ (requests.map fun req =>
          match f req with
          | some r => r
          | none => neutralPlaceholder).length = requests.length
    ∧ (∀ (g : String → Option AnalyzeResult) texts t, t ∈ texts → g t = none →
        analyze_batch g texts = none) := by
  refine ⟨?_, List.length_map _ _, ?_⟩
  · unfold batch_analyze_endpoint
    rw [if_neg (by simpa using hne), if_neg (by omega)]
  · intro g texts t hmem hg
    induction texts with
    | nil => cases hmem
    | cons x xs ih =>
      rcases List.mem_cons.mp hmem with h | h
      · subst h
        simp [analyze_batch, hg]
      · have hxs := ih h
        unfold analyze_batch
        rw [hxs]
        cases hx : g x <;> rfl

/-- Witness for C2: the isolation theorem applied to a concrete two-item
batch whose second item fails: the failed slot holds the neutral
placeholder and the batch is two items long. -/
theorem batch_failure_isolation_witness :
    batch_analyze_endpoint
        (fun req => if req.text = "bad" then none
          else some ⟨1/2, 1/2, "positive", [], .low, []⟩)
        [⟨"ok", none⟩, ⟨"bad", none⟩]
      = .ok [⟨1/2, 1/2, "positive", [], .low, []⟩, neutralPlaceholder] := by
  have h :=
    (batch_failure_isolation
      (fun req => if req.text = "bad" then none
        else some ⟨1/2, 1/2, "positive", [], .low, []⟩)
      [⟨"ok", none⟩, ⟨"bad", none⟩] (by simp) (by simp)).1
  rw [h]
  rfl

/-! ## Empty-text validation (C4)

Variant B's `/analyze` handler checks `if not request.text or not
request.text.strip()` before entering its `try` block; variant A's schema
(models.py `AnalyzeRequest`) enforces `min_length=1, max_length=10000` and
its handler performs no whitespace check. -/

/-- The whitespace characters stripped and collapsed by Python's
`str.strip()` and matched by the regex class `\s` on the service's ASCII
inputs. -/
def isSpaceChar (c : Char) : Bool :=
  c = ' ' || c = '\t' || c = '\n' || c = '\r' ||
    c = Char.ofNat 11 || c = Char.ofNat 12

/-- Python `str.strip()`: remove leading and trailing whitespace. -/
def stripList (l : List Char) : List Char :=
  ((l.dropWhile isSpaceChar).reverse.dropWhile isSpaceChar).reverse

/-- Python `str.strip()` on strings. -/
def pyStrip (s : String) : String := String.mk (stripList s.toList)

/-- Variant B `/analyze` handler (`analyze_text` in python-services
main.py): reject empty or whitespace-only text with a 400 before the `try`
block; inside it, a raised exception becomes a 500.  The analysis oracle
`f` is consulted only after validation passes. -/
def analyze_text_endpointB (f : String → Option AnalyzeResponseB)
    (text : String) : ApiResponse AnalyzeResponseB :=
  if text = "" || pyStrip text = "" then .httpError 400 "Text cannot be empty"
  else
    match f text with
    | some r => .ok r
    | none => .httpError 500 "Analysis failed"

/-- Variant A request-schema validation from models.py: `text` must satisfy
`min_length=1, max_length=10000` (pydantic counts characters). -/
def analyzeRequestValid (text : String) : Bool :=
  1 ≤ text.length && text.length ≤ 10000

/-- Variant A `/analyze` as seen by a client: pydantic validates the
request body (422 on failure), then the handler of `analyze_text_endpoint`
runs with the analysis oracle applied to the text. -/
def analyze_text_service (models_loaded : Bool)
    (f : String → Option AnalyzeResult) (text : String) : ApiResponse AnalyzeResult :=
  if analyzeRequestValid text then analyze_text_endpoint models_loaded (f text)
  else .httpError 422 "request validation error"

/-- C4 counterexample: a single-space text passes variant A's schema
validation (its length is 1) and the analysis pipeline runs on it — the
request is not rejected as a client error and the model is invoked, so the
claim fails for variant A's `/analyze`. -/
theorem whitespace_only_text_analyzed_by_variant_A :
    analyzeRequestValid " " = true
    ∧ analyze_text_service true (fun _ => some ⟨0, 1, .neutral, [], .low, []⟩) " "
        = .ok ⟨0, 1, .neutral, [], .low, []⟩ := by
  exact ⟨rfl, rfl⟩

/-- C4 amended: variant B's `/analyze` rejects every empty or
whitespace-only text with a 400 client error whose outcome is independent of
the analysis oracle (no model invocation is attempted); variant A's schema
rejects only the empty text (min_length 1), accepts whitespace-only text,
and its handler then runs the analysis pipeline on it. -/
theorem empty_text_client_error (text : String)
    (hws : text = "" ∨ pyStrip text = "") :
    (∀ f, analyze_text_endpointB f text = .httpError 400 "Text cannot be empty")
    ∧ analyzeRequestValid "" = false
    ∧ (∀ (g : String → Option AnalyzeResult) r, g " " = some r →
        analyze_text_service true g " " = .ok r) := by
  refine ⟨?_, rfl, ?_⟩
  · intro f
    unfold analyze_text_endpointB
    rcases hws with h | h <;> rw [if_pos (by simp [h])]
  · intro g r hg
    unfold analyze_text_service
    rw [show analyzeRequestValid " " = true from rfl]
    simp only [if_true]
    unfold analyze_text_endpoint analyze_text_try
    rw [hg]
    rfl

/-- Witness for C4: the amended theorem applied to the two-space text. -/
theorem empty_text_client_error_witness :
    analyze_text_endpointB (fun _ => none) "  " = .httpError 400 "Text cannot be empty" :=
  (empty_text_client_error "  " (Or.inr rfl)).1 (fun _ => none)

/-! ## Keyword extraction (C6, C10)

Variant A (`TextPreprocessor` in preprocessor.py): the NLTK stopword list
and `word_tokenize` are external collaborators, so the extractor below is
parametrized by the base stopword list and by the token list; the embedded
code is the constructor's stopword override, the token filter, and
`Counter(...).most_common(top_n)`.  Variant B (sentiment_analyzer.py
`extract_keywords`): spaCy tokenization is the external collaborator; the
embedded code is the part-of-speech/stopword/length filter, the seen-set
deduplication and the truncation — with no frequency ranking at all. -/

/-- `self.keep_words` from `TextPreprocessor.__init__`: words removed from
the stopword set to keep financial context. -/
def keep_words : List String :=
  ["up", "down", "above", "below", "against", "not", "no"]

/-- Python `str.isalnum()` on the ASCII tokens involved. -/
def pyIsAlnum (s : String) : Bool :=
  s.length > 0 && s.toList.all fun c => c.isAlpha || c.isDigit

/-- The token filter of variant A's `extract_keywords`: keep alphanumeric
tokens longer than 2 characters that are not in `self.stop_words`, where
`self.stop_words` is the base NLTK list minus `keep_words`. -/
def filterTokens (base tokens : List String) : List String :=
  tokens.filter fun token =>
    pyIsAlnum token && token.length > 2
      && !(decide (token ∈ base) && !(decide (token ∈ keep_words)))

/-- First-occurrence deduplication with a seen set: the insertion order of
`collections.Counter` keys in variant A and the `seen`-set loop of variant
B's `extract_keywords` and of both `extract_entities` variants. -/
def distinctGo (seen : List String) : List String → List String
  | [] => []
  | x :: xs => if x ∈ seen then distinctGo seen xs else x :: distinctGo (x :: seen) xs

/-- Distinct elements of a list in first-occurrence order. -/
def distinctInOrder (l : List String) : List String := distinctGo [] l

/-- The key Python's stable `sorted(..., key=itemgetter(1), reverse=True)`
in `Counter.most_common` orders the (first-occurrence index, token, count)
triples by: strictly larger count first, equal counts by insertion index. -/
def mcRel (a b : Nat × String × Nat) : Prop :=
  b.2.2 < a.2.2 ∨ (a.2.2 = b.2.2 ∧ a.1 ≤ b.1)

instance : DecidableRel mcRel := fun a b =>
  inferInstanceAs (Decidable (b.2.2 < a.2.2 ∨ (a.2.2 = b.2.2 ∧ a.1 ≤ b.1)))

instance : IsTotal (Nat × String × Nat) mcRel :=
  ⟨fun a b => by unfold mcRel; omega⟩

instance : IsTrans (Nat × String × Nat) mcRel :=
  ⟨fun a b c hab hbc => by unfold mcRel at *; omega⟩

/-- The items of `Counter(keywords)` in insertion (first-occurrence) order,
as (first-occurrence index, token, frequency) triples. -/
def counterItems (keywords : List String) : List (Nat × String × Nat) :=
  (distinctInOrder keywords).map fun t => (keywords.indexOf t, t, keywords.count t)

/-- Variant A `TextPreprocessor.extract_keywords` after tokenization:
filter, count, and return the words of `Counter(...).most_common(top_n)` —
a stable sort by descending frequency. -/
def extract_keywords (base tokens : List String) (top_n : Nat) : List String :=
  ((List.insertionSort mcRel (counterItems (filterTokens base tokens))).take top_n).map
    fun x => x.2.1

/-- A spaCy token as consumed by variant B's `extract_keywords`: surface
text, part-of-speech tag, and the stopword/punctuation flags. -/
structure SpacyTok where
  text : String
  pos : String
  is_stop : Bool
  is_punct : Bool
deriving DecidableEq, Repr

/-- Variant B `SentimentAnalyzer.extract_keywords` after tokenization: keep
NOUN/ADJ/VERB tokens that are not stopwords or punctuation and are longer
than 2 characters, deduplicate with a seen set preserving order, and take
the first `top_n` — without any frequency ranking. -/
def spacyKeywordFilter (toks : List SpacyTok) : List String :=
  (toks.filter fun tk =>
    ["NOUN", "ADJ", "VERB"].contains tk.pos && !tk.is_stop && !tk.is_punct
      && tk.text.length > 2).map fun tk => tk.text

/-- Variant B extractor: filtered token texts, deduplicated in order,
truncated to `top_n`. -/
def extract_keywords2 (toks : List SpacyTok) (top_n : Nat) : List String :=
  (distinctInOrder (spacyKeywordFilter toks)).take top_n

/-- Every element produced by `distinctGo` comes from the input list. -/
theorem distinctGo_mem {x : String} :
    ∀ (l seen : List String), x ∈ distinctGo seen l → x ∈ l := by
  intro l
  induction l with
  | nil => intro seen h; cases h
  | cons y ys ih =>
    intro seen h
    unfold distinctGo at h
    split_ifs at h with hy
    · exact List.mem_cons_of_mem y (ih seen h)
    · rcases List.mem_cons.mp h with h | h
      · exact h ▸ List.mem_cons_self y ys
      · exact List.mem_cons_of_mem y (ih (y :: seen) h)

/-- No element produced by `distinctGo` lies in the seen set. -/
theorem distinctGo_not_seen {x : String} :
    ∀ (l seen : List String), x ∈ distinctGo seen l → x ∉ seen := by
  intro l
  induction l with
  | nil => intro seen h; cases h
  | cons y ys ih =>
    intro seen h
    unfold distinctGo at h
    split_ifs at h with hy
    · exact ih seen h
    · rcases List.mem_cons.mp h with h | h
      · exact h ▸ hy
      · intro hx
        exact ih (y :: seen) h (List.mem_cons_of_mem y hx)

/-- `distinctGo` produces a list without duplicates. -/
theorem distinctGo_nodup : ∀ (l seen : List String), (distinctGo seen l).Nodup := by
  intro l
  induction l with
  | nil => intro seen; exact List.nodup_nil
  | cons y ys ih =>
    intro seen
    unfold distinctGo
    split_ifs with hy
    · exact ih seen
    · refine List.nodup_cons.mpr ⟨?_, ih (y :: seen)⟩
      intro hmem
      exact distinctGo_not_seen ys (y :: seen) hmem (List.mem_cons_self y seen)

/-- Mapping the triples of `counterItems` back to their tokens recovers the
distinct tokens in first-occurrence order. -/
theorem counterItems_words (keywords : List String) :
    (counterItems keywords).map (fun x => x.2.1) = distinctInOrder keywords := by
  unfold counterItems
  rw [List.map_map]
  exact List.map_id _

/-- C6 counterexample: the override word "up" is re-admitted into the
vocabulary (it is in `keep_words`, hence never a stopword) and is
alphanumeric, yet when it occurs as a token it is removed by the
minimum-length filter `len(token) > 2`, so it can never appear in the
keyword output. -/
theorem override_word_up_still_filtered :
    "up" ∈ keep_words ∧ pyIsAlnum "up" = true
    ∧ "up" ∉ filterTokens [] ["bitcoin", "up"]
    ∧ extract_keywords [] ["bitcoin", "up"] 10 = ["bitcoin"] := by
  refine ⟨by decide, by decide, by decide, by decide⟩

/-- C6 amended: the stopword filter never removes an override word — for
every base stopword list, an override word of `keep_words` that occurs as a
token and passes the alphanumeric and minimum-length filters (which requires
length at least 3, so "down", "above", "below", "against" and "not", but not
the length-2 words "up" and "no") survives `filterTokens` and is therefore
eligible to appear in the keyword output. -/
theorem override_words_survive_filters (base tokens : List String) (t : String)
    (hkeep : t ∈ keep_words) (hlen : 2 < t.length) (halnum : pyIsAlnum t = true)
    (htok : t ∈ tokens) : t ∈ filterTokens base tokens := by
  unfold filterTokens
  refine List.mem_filter.mpr ⟨htok, ?_⟩
  simp [halnum, hlen, hkeep]

/-- Witness for C6: the override word "not" passes all filters even when the
base stopword list contains it. -/
theorem override_words_survive_filters_witness :
    "not" ∈ filterTokens ["not", "the"] ["market", "not"] :=
  override_words_survive_filters ["not", "the"] ["market", "not"] "not"
    (by decide) (by decide) (by decide) (by decide)

/-- C10 counterexample: variant B's keyword extractor performs no frequency
ranking — on three filtered tokens "alpha", "beta", "beta" it returns
["alpha", "beta"], with the strictly more frequent "beta" after the less
frequent "alpha", so the output is not ordered by descending token
frequency. -/
theorem extract_keywords2_not_frequency_ranked :
    extract_keywords2
      [⟨"alpha", "NOUN", false, false⟩, ⟨"beta", "NOUN", false, false⟩,
       ⟨"beta", "NOUN", false, false⟩] 10 = ["alpha", "beta"]
    ∧ (spacyKeywordFilter
        [⟨"alpha", "NOUN", false, false⟩, ⟨"beta", "NOUN", false, false⟩,
         ⟨"beta", "NOUN", false, false⟩]).count "alpha"
      < (spacyKeywordFilter
        [⟨"alpha", "NOUN", false, false⟩, ⟨"beta", "NOUN", false, false⟩,
         ⟨"beta", "NOUN", false, false⟩]).count "beta" := by
  refine ⟨by decide, by decide⟩

/-- C10 amended: variant A's keyword output satisfies every stated
postcondition — length at most top-N, no stopword outside the override set,
no token shorter than 3 characters, no duplicates, and descending candidate
frequency with ties broken by first-occurrence order.  Variant B's output
satisfies the length bound, the no-stopword and minimum-length filters and
has no duplicates, but is returned in first-occurrence order without
frequency ranking. -/
theorem keyword_output_postconditions (base tokens : List String) (n : Nat) :
    (extract_keywords base tokens n).length ≤ n
    ∧ (∀ w ∈ extract_keywords base tokens n,
        (w ∈ base → w ∈ keep_words) ∧ 2 < w.length ∧ pyIsAlnum w = true)
    ∧ (extract_keywords base tokens n).Nodup
    ∧ (extract_keywords base tokens n).Pairwise (fun w v =>
        (filterTokens base tokens).count v < (filterTokens base tokens).count w
        ∨ ((filterTokens base tokens).count w = (filterTokens base tokens).count v
            ∧ (filterTokens base tokens).indexOf w ≤ (filterTokens base tokens).indexOf v))
    ∧ (∀ toks : List SpacyTok,
        (extract_keywords2 toks n).length ≤ n
        ∧ (∀ w ∈ extract_keywords2 toks n, 2 < w.length
            ∧ ∃ tk, tk ∈ toks ∧ tk.text = w ∧ tk.is_stop = false ∧ tk.is_punct = false)
        ∧ (extract_keywords2 toks n).Nodup) := by
  refine ⟨?_, ?_, ?_, ?_, ?_⟩
  · unfold extract_keywords
    rw [List.length_map]
    exact le_trans (Nat.le_of_eq (List.length_take _ _)) (Nat.min_le_left _ _)
  · intro w hw
    unfold extract_keywords at hw
    obtain ⟨x, hx, hxw⟩ := List.mem_map.mp hw
    have hxst := List.mem_of_mem_take hx
    have hxitems : x ∈ counterItems (filterTokens base tokens) :=
      (List.perm_insertionSort mcRel _).mem_iff.mp hxst
    obtain ⟨t, htdist, hxt⟩ := List.mem_map.mp hxitems
    have hwt : w = t := by rw [← hxw, ← hxt]
    subst hwt
    have htkws : w ∈ filterTokens base tokens := distinctGo_mem _ _ htdist
    have hfil := (List.mem_filter.mp htkws).2
    simp only [Bool.and_eq_true, Bool.not_eq_true', Bool.and_eq_false_iff,
      decide_eq_true_eq, decide_eq_false_iff_not, Bool.not_eq_false'] at hfil
    refine ⟨?_, hfil.1.2, hfil.1.1⟩
    intro hbase
    rcases hfil.2 with h | h
    · exact absurd hbase h
    · exact h
  · unfold extract_keywords
    rw [List.map_take]
    refine (List.take_sublist _ _).nodup ?_
    refine ((List.perm_insertionSort mcRel _).map _).nodup_iff.mpr ?_
    rw [counterItems_words]
    exact distinctGo_nodup _ _
  · have hsorted : (List.insertionSort mcRel
        (counterItems (filterTokens base tokens))).Pairwise mcRel :=
      List.sorted_insertionSort mcRel _
    have hfacts : ∀ x ∈ List.insertionSort mcRel
        (counterItems (filterTokens base tokens)),
        x.1 = (filterTokens base tokens).indexOf x.2.1
          ∧ x.2.2 = (filterTokens base tokens).count x.2.1 := by
      intro x hx
      have hxi : x ∈ counterItems (filterTokens base tokens) :=
        (List.perm_insertionSort mcRel _).mem_iff.mp hx
      obtain ⟨t, ht, hxt⟩ := List.mem_map.mp hxi
      rw [← hxt]
      exact ⟨rfl, rfl⟩
    have hp2 : (List.insertionSort mcRel
        (counterItems (filterTokens base tokens))).Pairwise
        (fun a b => (filterTokens base tokens).count b.2.1
            < (filterTokens base tokens).count a.2.1
          ∨ ((filterTokens base tokens).count a.2.1
              = (filterTokens base tokens).count b.2.1
            ∧ (filterTokens base tokens).indexOf a.2.1
              ≤ (filterTokens base tokens).indexOf b.2.1)) := by
      refine List.Pairwise.imp_of_mem (fun ha hb hr => ?_) hsorted
      obtain ⟨ha1, ha2⟩ := hfacts _ ha
      obtain ⟨hb1, hb2⟩ := hfacts _ hb
      unfold mcRel at hr
      rw [ha1, ha2, hb1, hb2] at hr
      exact hr
    unfold extract_keywords
    exact List.pairwise_map.mpr (hp2.sublist (List.take_sublist _ _))
  · intro toks
    refine ⟨?_, ?_, ?_⟩
    · unfold extract_keywords2
      exact le_trans (Nat.le_of_eq (List.length_take _ _)) (Nat.min_le_left _ _)
    · intro w hw
      unfold extract_keywords2 at hw
      have hwd := List.mem_of_mem_take hw
      have hwk : w ∈ spacyKeywordFilter toks := distinctGo_mem _ _ hwd
      obtain ⟨tk, htk, htkw⟩ := List.mem_map.mp hwk
      have hfil := List.mem_filter.mp htk
      have hflags := hfil.2
      simp only [Bool.and_eq_true, Bool.not_eq_true', decide_eq_true_eq] at hflags
      obtain ⟨⟨⟨hpos, hstop⟩, hpunct⟩, hlen⟩ := hflags
      exact ⟨htkw ▸ hlen, tk, hfil.1, htkw, hstop, hpunct⟩
    · unfold extract_keywords2
      exact (List.take_sublist _ _).nodup (distinctGo_nodup _ _)

/-- Witness for C10: the postcondition theorem instantiated on a concrete
token list in which "market" is the most frequent surviving token. -/
theorem keyword_output_postconditions_witness :
    extract_keywords ["the"] ["market", "rally", "the", "market"] 2
      = ["market", "rally"] := by
  have h := keyword_output_postconditions ["the"] ["market", "rally", "the", "market"] 2
  exact (by decide : extract_keywords ["the"] ["market", "rally", "the", "market"] 2
    = ["market", "rally"])

/-! ## Entity extraction (C9)

Variant A (`extract_entities` in analyzer.py): spaCy NER is the external
collaborator, represented as a list of (span text, label) pairs; the
embedded code is the label filter, the regex whole-word crypto scan with its
capitalization, the `not in entities` guard, and the final case-insensitive
first-seen deduplication.  Variant B (`extract_entities` in
sentiment_analyzer.py): NER spans carry offsets; the embedded code is the
type mapping, the `re.finditer` whole-word scan and the same-start guard. -/

/-- `CRYPTO_ENTITIES` from variant A's config.py. -/
def CRYPTO_ENTITIES : List String :=
  ["bitcoin", "btc", "ethereum", "eth", "binance", "coinbase",
   "tether", "usdt", "cardano", "ada", "solana", "sol",
   "ripple", "xrp", "dogecoin", "doge", "polkadot", "dot"]

/-- A regex word character (`\w`) on the service's ASCII inputs. -/
def isWordChar (c : Char) : Bool := c.isAlpha || c.isDigit || c = '_'

/-- There is a word boundary just before position `i` of `t` (for a pattern
beginning with a word character). -/
def boundaryBefore (t : List Char) : Nat → Bool
  | 0 => true
  | j + 1 =>
    match t.get? j with
    | some c => !isWordChar c
    | none => true

/-- There is a word boundary just after position `j` of `t` (for a pattern
ending with a word character). -/
def boundaryAfter (t : List Char) (j : Nat) : Bool :=
  match t.get? j with
  | some c => !isWordChar c
  | none => true

/-- The pattern `\b` ++ w ++ `\b` (with `w` alphanumeric, as every entry of
the crypto vocabularies is) matches `t` at position `i`. -/
def wordMatchAt (w t : List Char) (i : Nat) : Bool :=
  ((t.drop i).take w.length == w) && boundaryBefore t i && boundaryAfter t (i + w.length)

/-- `re.search(r'\b' + w + r'\b', t)` as a Boolean. -/
def hasWordMatch (w t : List Char) : Bool :=
  (List.range (t.length + 1)).any (wordMatchAt w t)

/-- The (start, end) pairs of `re.finditer(r'\b' + w + r'\b', t)`: for a
whole-word pattern the boundary conditions make overlaps impossible, so the
non-overlapping leftmost matches are exactly all boundary-delimited
occurrences, in position order. -/
def wordMatchPositions (w t : List Char) : List (Nat × Nat) :=
  (List.range (t.length + 1)).filterMap fun i =>
    if wordMatchAt w t i then some (i, i + w.length) else none

/-- Python `str.upper()`. -/
def pyUpperStr (s : String) : String := String.mk (s.toList.map Char.toUpper)

/-- Python `str.capitalize()`: first character uppercased, the rest
lowercased. -/
def pyCapitalize (s : String) : String :=
  match s.toList with
  | [] => ""
  | c :: rest => String.mk (c.toUpper :: rest.map Char.toLower)

/-- Case-insensitive first-seen deduplication with a seen set of lowered
forms — the final loop of variant A's `extract_entities`. -/
def dedupCIGo (seen : List String) : List String → List String
  | [] => []
  | e :: rest =>
    if pyLower e ∈ seen then dedupCIGo seen rest
    else e :: dedupCIGo (pyLower e :: seen) rest

/-- Case-insensitive deduplication, preserving first-seen order. -/
def dedupCI (l : List String) : List String := dedupCIGo [] l

/-- Variant A `SentimentAnalyzer.extract_entities`: keep spaCy spans with
label in ORG/PERSON/PRODUCT/GPE/MONEY, append capitalized crypto vocabulary
hits not already present, then deduplicate case-insensitively. -/
def extract_entities (ner : List (String × String)) (text : String) : List String :=
  dedupCI (CRYPTO_ENTITIES.foldl (fun acc crypto =>
    if hasWordMatch crypto.toList (pyLower text).toList then
      let crypto_cap := if crypto.length ≤ 4 then pyUpperStr crypto else pyCapitalize crypto
      if crypto_cap ∈ acc then acc else acc ++ [crypto_cap]
    else acc)
    ((ner.filter fun e =>
      ["ORG", "PERSON", "PRODUCT", "GPE", "MONEY"].contains e.2).map fun e => e.1))

/-- A spaCy entity span as consumed by variant B's `extract_entities`. -/
structure NerSpan where
  text : String
  label : String
  start_char : Nat
  end_char : Nat
deriving DecidableEq, Repr

/-- Python slice `text[a:b]` on the service's ASCII inputs. -/
def strSlice (s : String) (a b : Nat) : String :=
  String.mk ((s.toList.drop a).take (b - a))

/-- One step of variant B's crypto loop: append the match as a
cryptocurrency entity unless an entity with the same start offset exists. -/
def addMatchGuarded (text : String) (acc : List EntityInfo) (m : Nat × Nat) :
    List EntityInfo :=
  if acc.any fun e => e.start == m.1 then acc
  else acc ++ [⟨strSlice text m.1 m.2, "cryptocurrency", m.1, m.2⟩]

/-- All `finditer` matches of one crypto keyword folded into the entity
list. -/
def addCryptoMatches (text : String) (acc : List EntityInfo) (crypto : String) :
    List EntityInfo :=
  (wordMatchPositions crypto.toList (pyLower text).toList).foldl
    (addMatchGuarded text) acc

/-- Variant B `SentimentAnalyzer.extract_entities`: map every spaCy span
through `_map_entity_type`, then scan the lowercased text for each crypto
vocabulary word and add unseen-start matches as cryptocurrency entities. -/
def extract_entities2 (ner : List NerSpan) (text : String) : List EntityInfo :=
  crypto_keywords.foldl (addCryptoMatches text)
    (ner.map fun sp =>
      ⟨sp.text, map_entity_type sp.label (pyLower sp.text), sp.start_char, sp.end_char⟩)

/-- No element produced by `dedupCIGo` has its lowered form in the seen set. -/
theorem dedupCIGo_lower_not_seen {x : String} :
    ∀ (l seen : List String), x ∈ dedupCIGo seen l → pyLower x ∉ seen := by
  intro l
  induction l with
  | nil => intro seen h; cases h
  | cons y ys ih =>
    intro seen h
    unfold dedupCIGo at h
    split_ifs at h with hy
    · exact ih seen h
    · rcases List.mem_cons.mp h with h | h
      · exact h ▸ hy
      · intro hx
        exact ih (pyLower y :: seen) h (List.mem_cons_of_mem _ hx)

/-- `dedupCIGo` output has pairwise distinct lowered forms. -/
theorem dedupCIGo_pairwise :
    ∀ (l seen : List String),
      (dedupCIGo seen l).Pairwise fun a b => pyLower a ≠ pyLower b := by
  intro l
  induction l with
  | nil => intro seen; exact List.Pairwise.nil
  | cons y ys ih =>
    intro seen
    unfold dedupCIGo
    split_ifs with hy
    · exact ih seen
    · refine List.pairwise_cons.mpr ⟨?_, ih (pyLower y :: seen)⟩
      intro b hb heq
      exact dedupCIGo_lower_not_seen ys (pyLower y :: seen) hb
        (heq ▸ List.mem_cons_self _ _)

/-- `dedupCIGo` output is an order-preserving sublist of the input. -/
theorem dedupCIGo_sublist :
    ∀ (l seen : List String), List.Sublist (dedupCIGo seen l) l := by
  intro l
  induction l with
  | nil => intro seen; exact List.Sublist.refl []
  | cons y ys ih =>
    intro seen
    unfold dedupCIGo
    split_ifs with hy
    · exact List.Sublist.cons y (ih seen)
    · exact List.Sublist.cons₂ y (ih (pyLower y :: seen))

/-- Every element kept by `dedupCIGo` is the first element of the input with
its case-insensitive form, provided its form is not in the seen set (which
holds of all kept elements). -/
theorem dedupCIGo_find :
    ∀ (l seen : List String) (e : String), e ∈ dedupCIGo seen l →
      l.find? (fun x => pyLower x == pyLower e) = some e := by
  intro l
  induction l with
  | nil => intro seen e h; cases h
  | cons y ys ih =>
    intro seen e h
    unfold dedupCIGo at h
    split_ifs at h with hy
    · have hne : pyLower y ≠ pyLower e := by
        intro heq
        exact dedupCIGo_lower_not_seen ys seen h (heq ▸ hy)
      rw [List.find?_cons_of_neg _ (by simpa using hne)]
      exact ih seen e h
    · rcases List.mem_cons.mp h with h | h
      · subst h
        rw [List.find?_cons_of_pos _ (by simp)]
      · have hne : pyLower y ≠ pyLower e := by
          intro heq
          exact dedupCIGo_lower_not_seen ys (pyLower y :: seen) h
            (heq ▸ List.mem_cons_self _ _)
        rw [List.find?_cons_of_neg _ (by simpa using hne)]
        exact ih (pyLower y :: seen) e h

/-- Folding guarded match insertion preserves pairwise-distinct starts. -/
theorem foldl_addMatch_pairwise (text : String) :
    ∀ (ms : List (Nat × Nat)) (acc : List EntityInfo),
      acc.Pairwise (fun a b => a.start ≠ b.start) →
      (ms.foldl (addMatchGuarded text) acc).Pairwise fun a b => a.start ≠ b.start := by
  intro ms
  induction ms with
  | nil => intro acc h; exact h
  | cons m ms ih =>
    intro acc h
    rw [List.foldl_cons]
    unfold addMatchGuarded
    split_ifs with hany
    · exact ih acc h
    · refine ih _ ?_
      rw [List.pairwise_append]
      refine ⟨h, List.pairwise_singleton _ _, ?_⟩
      intro a ha b hb
      rw [List.mem_singleton] at hb
      subst hb
      intro heq
      apply hany
      rw [List.any_eq_true]
      exact ⟨a, ha, by simp [heq]⟩

/-- Folding guarded match insertion only appends. -/
theorem foldl_addMatch_extends (text : String) :
    ∀ (ms : List (Nat × Nat)) (acc : List EntityInfo),
      ∃ rest, ms.foldl (addMatchGuarded text) acc = acc ++ rest := by
  intro ms
  induction ms with
  | nil => intro acc; exact ⟨[], (List.append_nil acc).symm⟩
  | cons m ms ih =>
    intro acc
    rw [List.foldl_cons]
    by_cases hany : (acc.any fun e => e.start == m.1) = true
    · have h1 : addMatchGuarded text acc m = acc := by
        unfold addMatchGuarded
        rw [if_pos hany]
      rw [h1]
      exact ih acc
    · have h1 : addMatchGuarded text acc m
          = acc ++ [⟨strSlice text m.1 m.2, "cryptocurrency", m.1, m.2⟩] := by
        unfold addMatchGuarded
        rw [if_neg hany]
      rw [h1]
      obtain ⟨rest, hrest⟩ :=
        ih (acc ++ [⟨strSlice text m.1 m.2, "cryptocurrency", m.1, m.2⟩])
      refine ⟨[⟨strSlice text m.1 m.2, "cryptocurrency", m.1, m.2⟩] ++ rest, ?_⟩
      rw [hrest]
      exact List.append_assoc _ _ _

/-- The whole crypto loop preserves pairwise-distinct starts. -/
theorem foldl_addCrypto_pairwise (text : String) :
    ∀ (ks : List String) (acc : List EntityInfo),
      acc.Pairwise (fun a b => a.start ≠ b.start) →
      (ks.foldl (addCryptoMatches text) acc).Pairwise fun a b => a.start ≠ b.start := by
  intro ks
  induction ks with
  | nil => intro acc h; exact h
  | cons k ks ih =>
    intro acc h
    rw [List.foldl_cons]
    exact ih _ (foldl_addMatch_pairwise text _ acc h)

/-- The whole crypto loop only appends to the NER-derived entities. -/
theorem foldl_addCrypto_extends (text : String) :
    ∀ (ks : List String) (acc : List EntityInfo),
      ∃ rest, ks.foldl (addCryptoMatches text) acc = acc ++ rest := by
  intro ks
  induction ks with
  | nil => intro acc; exact ⟨[], (List.append_nil acc).symm⟩
  | cons k ks ih =>
    intro acc
    rw [List.foldl_cons]
    obtain ⟨r1, hr1⟩ := foldl_addMatch_extends text
      (wordMatchPositions k.toList (pyLower text).toList) acc
    have h1 : addCryptoMatches text acc k = acc ++ r1 := hr1
    rw [h1]
    obtain ⟨r2, hr2⟩ := ih (acc ++ r1)
    refine ⟨r1 ++ r2, ?_⟩
    rw [hr2]
    exact List.append_assoc _ _ _

/-- C9: entity deduplication.  In variant A no two returned entities share a
case-insensitive surface form, the output preserves first-seen order (it is
a sublist of the merged list) and keeps exactly the first occurrence of each
case-insensitive form; in variant B, whenever the NER spans have pairwise
distinct start offsets (spaCy spans never overlap), no two returned entities
share a start offset, and the NER-derived entities are preserved as a prefix
in first-seen order, crypto additions following. -/
theorem entity_dedup_properties (merged : List String)
    (ner1 : List (String × String)) (text1 : String)
    (ner2 : List NerSpan) (text2 : String)
    (hstarts : (ner2.map fun sp => sp.start_char).Pairwise (· ≠ ·)) :
    ((dedupCI merged).Pairwise fun a b => pyLower a ≠ pyLower b)
    ∧ List.Sublist (dedupCI merged) merged
    ∧ (∀ e ∈ dedupCI merged, merged.find? (fun x => pyLower x == pyLower e) = some e)
    ∧ ((extract_entities ner1 text1).Pairwise fun a b => pyLower a ≠ pyLower b)
    ∧ ((extract_entities2 ner2 text2).Pairwise fun a b => a.start ≠ b.start)
    ∧ (∃ rest, extract_entities2 ner2 text2
        = (ner2.map fun sp =>
            EntityInfo.mk sp.text (map_entity_type sp.label (pyLower sp.text))
              sp.start_char sp.end_char) ++ rest) := by
  have hmapped : ((ner2.map fun sp =>
      EntityInfo.mk sp.text (map_entity_type sp.label (pyLower sp.text))
        sp.start_char sp.end_char).Pairwise fun a b => a.start ≠ b.start) := by
    rw [List.pairwise_map]
    rw [List.pairwise_map] at hstarts
    exact hstarts
  refine ⟨dedupCIGo_pairwise merged [], dedupCIGo_sublist merged [],
    fun e he => dedupCIGo_find merged [] e he, ?_, ?_, ?_⟩
  · exact dedupCIGo_pairwise _ []
  · exact foldl_addCrypto_pairwise text2 crypto_keywords _ hmapped
  · exact foldl_addCrypto_extends text2 crypto_keywords _

/-- Witness for C9: the theorem applied to a concrete NER span list and
texts; the output of variant B on "btc up" with one NER span at offset 4 has
pairwise distinct starts. -/
theorem entity_dedup_properties_witness :
    ((extract_entities2 [⟨"up", "ORG", 4, 6⟩] "btc up").Pairwise
      fun a b => a.start ≠ b.start)
    ∧ ((dedupCI ["BTC", "btc", "SEC"]).Pairwise fun a b => pyLower a ≠ pyLower b) := by
  have h := entity_dedup_properties ["BTC", "btc", "SEC"] [] ""
    [⟨"up", "ORG", 4, 6⟩] "btc up" (by simp)
  exact ⟨h.2.2.2.2.1, h.1⟩

/-! ## Text normalizers (C5)

Variant A `TextPreprocessor.clean_text` (preprocessor.py, lines 31-59):
lowercase, then `re.sub` of the URL pattern
`http[s]?://(?:[a-zA-Z]|[0-9]|[$-_@.&+]|[!*\(\),]|%hexhex)+`, the email
pattern `\S+@\S+`, the HTML pattern `<[^>]+>`, then `\s+` collapse and
`strip()`.  Variant B `SentimentAnalyzer.preprocess_text`
(sentiment_analyzer.py, lines 61-83): `\s+` collapse and `strip()` first,
then the HTML pattern, then `http\S+|www\.\S+`, then `\S+@\S+`.

Each `re.sub(pattern, '', text)` is embedded as a left-to-right scanner
implementing that pattern's leftmost-match semantics; the scanners use an
explicit fuel argument (initialized to the input length, which the
recursion never exhausts) so that they are structurally recursive and
kernel-computable.  For `\S+@\S+` the leftmost-longest match is exactly a
maximal non-space run containing an '@' at an interior position, and the
whole run is removed.  All chars of `[$-_@.&+]`, `[!*\(\),]` and `%` lie in
the ASCII range 36..95 except '!', so the character class of the variant A
URL pattern is {33} ∪ [36..95] ∪ [97..122] ∪ [a-zA-Z0-9] = letters, digits
and ASCII 36..95 plus '!'. -/

/-- `re.sub(r'\s+', ' ', ...)`: replace each maximal whitespace run by one
space. -/
def collapseGo : Nat → List Char → List Char
  | 0, _ => []
  | _ + 1, [] => []
  | fuel + 1, c :: rest =>
    if isSpaceChar c then ' ' :: collapseGo fuel (rest.dropWhile isSpaceChar)
    else c :: collapseGo fuel rest

/-- Whitespace collapse at adequate fuel. -/
def collapseWs (l : List Char) : List Char := collapseGo l.length l

/-- `re.sub(r'<[^>]+>', '', ...)`: on '<', the match extends to the first
following '>' provided at least one character lies between. -/
def removeHtmlGo : Nat → List Char → List Char
  | 0, _ => []
  | _ + 1, [] => []
  | fuel + 1, c :: rest =>
    if c = '<' then
      if (rest.takeWhile fun d => !(d = '>')).length = 0 then c :: removeHtmlGo fuel rest
      else if (rest.takeWhile fun d => !(d = '>')).length < rest.length then
        removeHtmlGo fuel (rest.drop ((rest.takeWhile fun d => !(d = '>')).length + 1))
      else c :: removeHtmlGo fuel rest
    else c :: removeHtmlGo fuel rest

/-- HTML tag removal at adequate fuel. -/
def removeHtmlTags (l : List Char) : List Char := removeHtmlGo l.length l

/-- A maximal non-space run is an email match of `\S+@\S+` exactly when it
has an '@' at an interior position. -/
def hasInteriorAt (run : List Char) : Bool := ((run.drop 1).dropLast).contains '@'

/-- `re.sub(r'\S+@\S+', '', ...)`: remove every maximal non-space run
containing an interior '@'. -/
def removeEmailsGo : Nat → List Char → List Char
  | 0, _ => []
  | _ + 1, [] => []
  | fuel + 1, c :: rest =>
    if isSpaceChar c then c :: removeEmailsGo fuel rest
    else
      (if hasInteriorAt ((c :: rest).takeWhile fun d => !isSpaceChar d) then []
       else (c :: rest).takeWhile fun d => !isSpaceChar d)
        ++ removeEmailsGo fuel ((c :: rest).dropWhile fun d => !isSpaceChar d)

/-- Email removal at adequate fuel. -/
def removeEmailRuns (l : List Char) : List Char := removeEmailsGo l.length l

/-- The character class of variant A's URL pattern. -/
def urlCharClean (c : Char) : Bool :=
  c = '!' || ('$' ≤ c && c ≤ '_') || ('a' ≤ c && c ≤ 'z') || ('0' ≤ c && c ≤ '9')

/-- Length of the variant A URL match starting exactly here, if any:
literal `http`, greedy optional `s`, `://`, then one or more class
characters (greedy). -/
def matchCleanUrl (l : List Char) : Option Nat :=
  if l.take 8 = "https://".toList then
    (if ((l.drop 8).takeWhile urlCharClean).length = 0 then none
     else some (8 + ((l.drop 8).takeWhile urlCharClean).length))
  else if l.take 7 = "http://".toList then
    (if ((l.drop 7).takeWhile urlCharClean).length = 0 then none
     else some (7 + ((l.drop 7).takeWhile urlCharClean).length))
  else none

/-- `re.sub` of the variant A URL pattern. -/
def removeUrlsCleanGo : Nat → List Char → List Char
  | 0, _ => []
  | _ + 1, [] => []
  | fuel + 1, c :: rest =>
    match matchCleanUrl (c :: rest) with
    | some k => removeUrlsCleanGo fuel ((c :: rest).drop k)
    | none => c :: removeUrlsCleanGo fuel rest

/-- Variant A URL removal at adequate fuel. -/
def removeUrlsClean (l : List Char) : List Char := removeUrlsCleanGo l.length l

/-- Length of the variant B URL match starting exactly here, if any:
`http\S+` first, else `www\.\S+`. -/
def matchPsUrl (l : List Char) : Option Nat :=
  if l.take 4 = "http".toList then
    (if ((l.drop 4).takeWhile fun d => !isSpaceChar d).length = 0 then none
     else some (4 + ((l.drop 4).takeWhile fun d => !isSpaceChar d).length))
  else if l.take 4 = "www.".toList then
    (if ((l.drop 4).takeWhile fun d => !isSpaceChar d).length = 0 then none
     else some (4 + ((l.drop 4).takeWhile fun d => !isSpaceChar d).length))
  else none

/-- `re.sub(r'http\S+|www\.\S+', '', ...)`. -/
def removeUrlsPsGo : Nat → List Char → List Char
  | 0, _ => []
  | _ + 1, [] => []
  | fuel + 1, c :: rest =>
    match matchPsUrl (c :: rest) with
    | some k => removeUrlsPsGo fuel ((c :: rest).drop k)
    | none => c :: removeUrlsPsGo fuel rest

/-- Variant B URL removal at adequate fuel. -/
def removeUrlsPs (l : List Char) : List Char := removeUrlsPsGo l.length l

/-- Variant A `TextPreprocessor.clean_text`: lowercase, strip URLs, strip
emails, strip HTML tags, collapse whitespace, trim. -/
def clean_text (s : String) : String :=
  String.mk (stripList (collapseWs (removeHtmlTags (removeEmailRuns
    (removeUrlsClean (pyLower s).toList)))))

/-- Variant B `SentimentAnalyzer.preprocess_text`: collapse whitespace and
trim first, then strip HTML tags, then URLs, then emails; no lowercasing. -/
def preprocess_text (s : String) : String :=
  String.mk (removeEmailRuns (removeUrlsPs (removeHtmlTags
    (stripList (collapseWs s.toList)))))

/-- Some suffix of `l` begins with a variant A URL match. -/
def containsCleanUrlMatch (l : List Char) : Bool :=
  (List.range (l.length + 1)).any fun i => (matchCleanUrl (l.drop i)).isSome

/-- No suffix of `l` begins with a variant B URL match. -/
def noPsUrl : List Char → Bool
  | [] => true
  | c :: rest => (matchPsUrl (c :: rest)).isNone && noPsUrl rest

/-- C5 counterexample.  Variant B applies whitespace collapse and trim
before pattern removal, so `preprocess_text "a http://b.c"` is "a " — it
ends in whitespace, violating the trim postcondition.  Variant A removes
URLs before HTML tags, so tag removal can splice a URL together:
`clean_text "htt<p>p://x.com"` is "http://x.com", which matches the URL
pattern the normalizer was supposed to have stripped. -/
theorem normalizer_output_violations :
    preprocess_text "a http://b.c" = "a "
    ∧ (preprocess_text "a http://b.c").toList.getLast? = some ' '
    ∧ isSpaceChar ' ' = true
    ∧ clean_text "htt<p>p://x.com" = "http://x.com"
    ∧ containsCleanUrlMatch (clean_text "htt<p>p://x.com").toList = true := by
  refine ⟨rfl, rfl, rfl, rfl, rfl⟩

/-- Whitespace discipline: no two adjacent whitespace characters. -/
def noTwoSpaces (l : List Char) : Prop :=
  l.Chain' fun a b => ¬(isSpaceChar a = true ∧ isSpaceChar b = true)

/-- The head of `dropWhile p` never satisfies `p`. -/
theorem head?_dropWhile_false (p : Char → Bool) :
    ∀ (l : List Char) (d : Char), (l.dropWhile p).head? = some d → p d = false := by
  intro l
  induction l with
  | nil => intro d h; cases h
  | cons c rest ih =>
    intro d h
    rw [List.dropWhile_cons] at h
    split_ifs at h with hc
    · exact ih d h
    · rw [List.head?_cons] at h
      cases h
      exact Bool.eq_false_iff.mpr hc

/-- If the input's head is not whitespace, neither is the output's. -/
theorem collapseGo_head_not_space (fuel : Nat) (l : List Char) (c : Char)
    (hl : ∀ d, l.head? = some d → isSpaceChar d = false)
    (h : (collapseGo fuel l).head? = some c) : isSpaceChar c = false := by
  match fuel, l with
  | 0, _ => cases h
  | f + 1, [] => cases h
  | f + 1, d :: rest =>
    unfold collapseGo at h
    split_ifs at h with hd
    · have hne := hl d rfl
      rw [hne] at hd
      exact Bool.noConfusion hd
    · rw [List.head?_cons] at h
      cases h
      exact Bool.eq_false_iff.mpr hd

/-- Whitespace collapse leaves no two adjacent whitespace characters. -/
theorem collapseGo_chain : ∀ (fuel : Nat) (l : List Char), noTwoSpaces (collapseGo fuel l) := by
  intro fuel
  induction fuel with
  | zero => intro l; exact List.chain'_nil
  | succ f ih =>
    intro l
    match l with
    | [] => exact List.chain'_nil
    | c :: rest =>
      unfold collapseGo
      split_ifs with hc
      · unfold noTwoSpaces
        rw [List.chain'_cons']
        refine ⟨?_, ih _⟩
        intro y hy
        rintro ⟨-, hys⟩
        have hhead : ∀ d, (rest.dropWhile isSpaceChar).head? = some d →
            isSpaceChar d = false :=
          fun d hd => head?_dropWhile_false isSpaceChar rest d hd
        have hyf := collapseGo_head_not_space f _ y hhead (Option.mem_def.mp hy)
        rw [hyf] at hys
        exact Bool.noConfusion hys
      · unfold noTwoSpaces
        rw [List.chain'_cons']
        refine ⟨?_, ih rest⟩
        intro y hy
        rintro ⟨hcs, -⟩
        exact hc hcs

/-- A nonempty suffix has the same last element. -/
theorem suffix_getLast? (w z : List Char) (hsuf : List.IsSuffix w z) (hw : w ≠ []) :
    w.getLast? = z.getLast? := by
  obtain ⟨t, rfl⟩ := hsuf
  exact (List.getLast?_append_of_ne_nil t hw).symm

/-- Trimming preserves the absence of adjacent whitespace pairs. -/
theorem stripList_chain (y : List Char) (h : noTwoSpaces y) : noTwoSpaces (stripList y) := by
  unfold stripList
  have h1 : noTwoSpaces (y.dropWhile isSpaceChar) :=
    h.suffix (List.dropWhile_suffix _)
  have h2 : noTwoSpaces ((y.dropWhile isSpaceChar).reverse) :=
    List.chain'_reverse.mpr (h1.imp fun a b hab hx => hab ⟨hx.2, hx.1⟩)
  have h3 : noTwoSpaces (((y.dropWhile isSpaceChar).reverse).dropWhile isSpaceChar) :=
    h2.suffix (List.dropWhile_suffix _)
  exact List.chain'_reverse.mpr (h3.imp fun a b hab hx => hab ⟨hx.2, hx.1⟩)

/-- The trimmed list never begins with whitespace. -/
theorem stripList_head (y : List Char) (c : Char)
    (h : (stripList y).head? = some c) : isSpaceChar c = false := by
  unfold stripList at h
  rw [List.head?_reverse] at h
  have hwne : ((y.dropWhile isSpaceChar).reverse.dropWhile isSpaceChar) ≠ [] := by
    intro he
    rw [he] at h
    cases h
  have heq := suffix_getLast? _ ((y.dropWhile isSpaceChar).reverse)
    (List.dropWhile_suffix _) hwne
  rw [heq, List.getLast?_reverse] at h
  exact head?_dropWhile_false isSpaceChar y c h

/-- The trimmed list never ends with whitespace. -/
theorem stripList_getLast (y : List Char) (c : Char)
    (h : (stripList y).getLast? = some c) : isSpaceChar c = false := by
  unfold stripList at h
  rw [List.getLast?_reverse] at h
  exact head?_dropWhile_false isSpaceChar _ c h



/-- Witness for C1: the amended theorem applied to a concrete distribution
(variant A margin at P(pos)=0.5, P(neg)=0.3) and to a concrete variant B
result list whose winner is neutral, discharging the hypothesis that
`classify_sentiment2` returned that record. -/
theorem classify_sentiment_margin_vs_confidence_witness :
    (classify_sentiment ⟨1/2, 3/10, 1/5⟩).1 = max (-1) (min 1 (1/2 - 3/10))
    ∧ (0 : ℚ) = 0 := by
  have h := classify_sentiment_margin_vs_confidence
  refine ⟨h.1 ⟨1/2, 3/10, 1/5⟩, ?_⟩
  have hfold : maxByScore [("neutral", (9/10 : ℚ)), ("positive", 1/10)]
      = some ("neutral", 9/10) := by
    simp only [maxByScore, List.foldl]
    norm_num
  have hpl : pyLower "neutral" = "neutral" := rfl
  have hmx : classify_sentiment2 [("neutral", 9/10), ("positive", 1/10)]
      = some (0, 9/10, "neutral") := by
    unfold classify_sentiment2
    rw [hfold]
    simp only [hpl]
    rw [if_neg (by simp)]
    rw [show sentiment_map "neutral" = 0 from by simp [sentiment_map]]
  exact (h.2.2 [("neutral", 9/10), ("positive", 1/10)] 0 (9/10) "neutral" hmx).1 rfl

/-! ## Pattern-absence guarantees for the normalizers (C5, continued)

`noTagMatch` rules out every occurrence of `<[^>]+>`: a match starting at a
'<' requires the following characters to be a nonempty '>'-free block
followed by '>', i.e. the rest of the list contains '>' but does not begin
with it; `noTagMatch` denies that at every position.  `noEmailMatch` rules
out every occurrence of `\S+@\S+`: a match exists exactly when some '@' has
a non-whitespace character immediately on each side. -/

/-- No position can start an HTML-tag match. -/
def noTagMatch : List Char → Bool
  | [] => true
  | c :: rest =>
    (if c = '<' then !(decide ('>' ∈ rest)) || rest.head? == some '>' else true)
      && noTagMatch rest

/-- No three consecutive characters form nonspace-'@'-nonspace. -/
def noEmailMatch : List Char → Bool
  | a :: b :: c :: rest =>
    (b != '@' || isSpaceChar a || isSpaceChar c) && noEmailMatch (b :: c :: rest)
  | _ => true

/-- `noTagMatch` passes to the tail. -/
theorem noTagMatch_tail {c : Char} {l : List Char} (h : noTagMatch (c :: l) = true) :
    noTagMatch l = true := by
  unfold noTagMatch at h
  rw [Bool.and_eq_true] at h
  exact h.2

/-- HTML removal only deletes characters. -/
theorem removeHtmlGo_sublist : ∀ (fuel : Nat) (l : List Char),
    List.Sublist (removeHtmlGo fuel l) l := by
  intro fuel
  induction fuel with
  | zero => intro l; exact List.nil_sublist l
  | succ f ih =>
    intro l
    match l with
    | [] => exact List.Sublist.refl []
    | c :: rest =>
      unfold removeHtmlGo
      split_ifs with hc hp hlt
      · exact List.Sublist.cons₂ c (ih rest)
      · exact List.Sublist.cons c ((ih _).trans (List.drop_sublist _ rest))
      · exact List.Sublist.cons₂ c (ih rest)
      · exact List.Sublist.cons₂ c (ih rest)

/-- `removeHtmlGo` on the empty list is empty at every fuel. -/
theorem removeHtmlGo_nil : ∀ fuel : Nat, removeHtmlGo fuel [] = [] := by
  intro fuel
  cases fuel <;> rfl

/-- The output of HTML removal admits no tag match. -/
theorem removeHtmlGo_noTag : ∀ (fuel : Nat) (l : List Char),
    noTagMatch (removeHtmlGo fuel l) = true := by
  intro fuel
  induction fuel with
  | zero => intro l; rfl
  | succ f ih =>
    intro l
    match l with
    | [] => rfl
    | c :: rest =>
      unfold removeHtmlGo
      split_ifs with hc hp hlt
      · subst hc
        unfold noTagMatch
        rw [Bool.and_eq_true]
        refine ⟨?_, ih rest⟩
        rw [if_pos rfl]
        match rest with
        | [] =>
          rw [removeHtmlGo_nil f]
          rfl
        | d :: rest₂ =>
          have hd : d = '>' := by
            by_cases hd' : d = '>'
            · exact hd'
            · exfalso
              rw [List.takeWhile_cons_of_pos (by simpa using hd')] at hp
              simp at hp
          subst hd
          match f with
          | 0 => rfl
          | f' + 1 =>
            unfold removeHtmlGo
            rw [if_neg (by decide : ¬('>' = '<'))]
            simp
      · exact ih _
      · subst hc
        have heq : rest.takeWhile (fun d => !(d = '>')) = rest :=
          (List.takeWhile_sublist _).eq_of_length
            (Nat.le_antisymm (List.Sublist.length_le (List.takeWhile_sublist _))
              (Nat.le_of_not_lt hlt))
        have hgt : ¬('>' ∈ rest) := by
          intro hm
          have hm' : '>' ∈ rest.takeWhile (fun d => !(d = '>')) := by
            rw [heq]
            exact hm
          have := List.mem_takeWhile_imp hm'
          simp at this
        unfold noTagMatch
        rw [Bool.and_eq_true]
        refine ⟨?_, ih rest⟩
        rw [if_pos rfl]
        have hni : ¬('>' ∈ removeHtmlGo f rest) :=
          fun hm => hgt ((removeHtmlGo_sublist f rest).subset hm)
        simp [hni]
      · unfold noTagMatch
        rw [Bool.and_eq_true]
        exact ⟨by rw [if_neg hc], ih rest⟩

/-- Whitespace collapse introduces only spaces. -/
theorem collapseGo_mem : ∀ (fuel : Nat) (l : List Char) (x : Char),
    x ∈ collapseGo fuel l → x ∈ l ∨ x = ' ' := by
  intro fuel
  induction fuel with
  | zero =>
    intro l x hx
    simp [collapseGo] at hx
  | succ f ih =>
    intro l x hx
    match l with
    | [] => simp [collapseGo] at hx
    | c :: rest =>
      unfold collapseGo at hx
      split_ifs at hx with hc
      · rcases List.mem_cons.mp hx with rfl | hx'
        · exact Or.inr rfl
        · rcases ih _ x hx' with hmem | hsp
          · exact Or.inl (List.mem_cons_of_mem c
              ((List.dropWhile_suffix _).sublist.subset hmem))
          · exact Or.inr hsp
      · rcases List.mem_cons.mp hx with rfl | hx'
        · exact Or.inl (List.mem_cons_self _ _)
        · rcases ih rest x hx' with hmem | hsp
          · exact Or.inl (List.mem_cons_of_mem c hmem)
          · exact Or.inr hsp

/-- `noTagMatch` is inherited by every suffix. -/
theorem noTagMatch_suffix : ∀ (l m : List Char), List.IsSuffix m l →
    noTagMatch l = true → noTagMatch m = true := by
  intro l
  induction l with
  | nil =>
    intro m hm h
    cases List.suffix_nil.mp hm
    exact h
  | cons c rest ih =>
    intro m hm h
    rcases List.suffix_cons_iff.mp hm with rfl | hm'
    · exact h
    · exact ih m hm' (noTagMatch_tail h)

/-- `noTagMatch` is inherited by every initial segment. -/
theorem noTagMatch_append_left : ∀ (w t : List Char),
    noTagMatch (w ++ t) = true → noTagMatch w = true := by
  intro w
  induction w with
  | nil => intro t h; rfl
  | cons c w' ih =>
    intro t h
    rw [List.cons_append] at h
    unfold noTagMatch at h ⊢
    rw [Bool.and_eq_true] at h ⊢
    obtain ⟨h1, h2⟩ := h
    refine ⟨?_, ih t h2⟩
    by_cases hc : c = '<'
    · rw [if_pos hc] at h1 ⊢
      rw [Bool.or_eq_true] at h1
      rcases h1 with hl | hr
      · have hni : ¬('>' ∈ w') := by
          intro hm
          rw [decide_eq_true (List.mem_append_left t hm)] at hl
          exact Bool.noConfusion hl
        simp [hni]
      · match w' with
        | [] => simp
        | d :: w₂ =>
          rw [List.cons_append, List.head?_cons] at hr
          have hd : d = '>' := by simpa using hr
          subst hd
          simp
    · rw [if_neg hc]

/-- Whitespace collapse preserves the absence of tag matches. -/
theorem collapseGo_noTag : ∀ (fuel : Nat) (l : List Char),
    noTagMatch l = true → noTagMatch (collapseGo fuel l) = true := by
  intro fuel
  induction fuel with
  | zero => intro l h; rfl
  | succ f ih =>
    intro l h
    match l with
    | [] => rfl
    | c :: rest =>
      unfold collapseGo
      split_ifs with hc
      · unfold noTagMatch
        rw [Bool.and_eq_true]
        refine ⟨?_, ih _ (noTagMatch_suffix rest _ (List.dropWhile_suffix _)
          (noTagMatch_tail h))⟩
        rw [if_neg (by decide : ¬(' ' = '<'))]
      · unfold noTagMatch
        rw [Bool.and_eq_true]
        refine ⟨?_, ih rest (noTagMatch_tail h)⟩
        by_cases hlt : c = '<'
        · rw [if_pos hlt]
          have h1 : (!(decide ('>' ∈ rest)) || rest.head? == some '>') = true := by
            unfold noTagMatch at h
            rw [Bool.and_eq_true] at h
            have := h.1
            rw [if_pos hlt] at this
            exact this
          rw [Bool.or_eq_true] at h1
          rcases h1 with hl | hr
          · have hni : ¬('>' ∈ rest) := by
              intro hm
              rw [decide_eq_true hm] at hl
              exact Bool.noConfusion hl
            have hno : ¬('>' ∈ collapseGo f rest) := by
              intro hm
              rcases collapseGo_mem f rest '>' hm with hmem | hsp
              · exact hni hmem
              · exact absurd hsp (by decide)
            simp [hno]
          · match rest with
            | [] => exact Bool.noConfusion hr
            | d :: rest₂ =>
              have hd : d = '>' := by
                rw [List.head?_cons] at hr
                simpa using hr
              subst hd
              match f with
              | 0 => simp [collapseGo]
              | f' + 1 =>
                unfold collapseGo
                rw [if_neg (by decide : ¬(isSpaceChar '>' = true))]
                simp
        · rw [if_neg hlt]

/-- Trimming preserves the absence of tag matches. -/
theorem noTagMatch_stripList (y : List Char) (h : noTagMatch y = true) :
    noTagMatch (stripList y) = true := by
  unfold stripList
  have h1 : noTagMatch (y.dropWhile isSpaceChar) = true :=
    noTagMatch_suffix y _ (List.dropWhile_suffix _) h
  have hsuf : List.IsSuffix
      ((y.dropWhile isSpaceChar).reverse.dropWhile isSpaceChar)
      ((y.dropWhile isSpaceChar).reverse) := List.dropWhile_suffix _
  obtain ⟨t, ht⟩ := hsuf
  have hpre : ((y.dropWhile isSpaceChar).reverse.dropWhile isSpaceChar).reverse
      ++ t.reverse = y.dropWhile isSpaceChar := by
    have hrev := congrArg List.reverse ht
    rw [List.reverse_append, List.reverse_reverse] at hrev
    exact hrev
  refine noTagMatch_append_left _ t.reverse ?_
  rw [hpre]
  exact h1

/-- `noEmailMatch` passes to the tail. -/
theorem noEmailMatch_tail {a : Char} {l : List Char}
    (h : noEmailMatch (a :: l) = true) : noEmailMatch l = true := by
  match l with
  | [] => rfl
  | [x] => rfl
  | b :: c :: rest =>
    unfold noEmailMatch at h
    rw [Bool.and_eq_true] at h
    exact h.2

/-- A whitespace character can always be prepended. -/
theorem noEmailMatch_cons_space {x : Char} (hx : isSpaceChar x = true)
    (l : List Char) (h : noEmailMatch l = true) : noEmailMatch (x :: l) = true := by
  match l with
  | [] => rfl
  | [d] => rfl
  | b :: c :: rest =>
    unfold noEmailMatch
    rw [Bool.and_eq_true]
    exact ⟨by simp [hx], h⟩

/-- Any character can be prepended to a list whose head is whitespace. -/
theorem noEmailMatch_cons_headsafe (x : Char) (l : List Char)
    (hhd : ∀ d, l.head? = some d → isSpaceChar d = true)
    (h : noEmailMatch l = true) : noEmailMatch (x :: l) = true := by
  match l with
  | [] => rfl
  | [d] => rfl
  | b :: c :: rest =>
    unfold noEmailMatch
    rw [Bool.and_eq_true]
    refine ⟨?_, h⟩
    have hb : isSpaceChar b = true := hhd b rfl
    have hbne : b ≠ '@' := by
      intro hbe
      rw [hbe] at hb
      exact absurd hb (by decide)
    simp [hbne]

/-- A non-space run without an interior '@' can be prepended to a list that
is email-free and begins with whitespace (or is empty). -/
theorem noEmailMatch_run_append :
    ∀ (run X : List Char), hasInteriorAt run = false → noEmailMatch X = true →
      (∀ e, X.head? = some e → isSpaceChar e = true) →
      noEmailMatch (run ++ X) = true := by
  intro run
  induction run with
  | nil =>
    intro X h1 h2 h3
    exact h2
  | cons a run' ih =>
    intro X h1 h2 h3
    cases run' with
    | nil => exact noEmailMatch_cons_headsafe a X h3 h2
    | cons b run₂ =>
      have hint : hasInteriorAt (b :: run₂) = false := by
        unfold hasInteriorAt at h1 ⊢
        cases run₂ with
        | nil => rfl
        | cons c run₃ =>
          simp only [List.drop_one, List.tail_cons] at h1 ⊢
          rw [List.dropLast_cons₂] at h1
          simp only [List.contains_cons, Bool.or_eq_false_iff] at h1
          exact h1.2
      have hmain : noEmailMatch (b :: (run₂ ++ X)) = true := by
        have hm := ih X hint h2 h3
        simpa using hm
      show noEmailMatch (a :: b :: (run₂ ++ X)) = true
      cases run₂ with
      | nil =>
        match X with
        | [] => rfl
        | x :: X' =>
          rw [List.nil_append]
          unfold noEmailMatch
          rw [Bool.and_eq_true]
          refine ⟨?_, by simpa using hmain⟩
          have hx := h3 x rfl
          simp [hx]
      | cons c run₃ =>
        rw [List.cons_append]
        unfold noEmailMatch
        rw [Bool.and_eq_true]
        refine ⟨?_, by simpa using hmain⟩
        by_cases hb : b = '@'
        · exfalso
          subst hb
          unfold hasInteriorAt at h1
          simp only [List.drop_one, List.tail_cons] at h1
          rw [List.dropLast_cons₂] at h1
          simp [List.contains_cons] at h1
        · simp [hb]

/-- If the input begins with whitespace (or is empty), so does the output
of email removal. -/
theorem removeEmailsGo_head_space (fuel : Nat) (l : List Char)
    (hl : ∀ d, l.head? = some d → isSpaceChar d = true) :
    ∀ e, (removeEmailsGo fuel l).head? = some e → isSpaceChar e = true := by
  intro e he
  match fuel, l with
  | 0, _ => cases he
  | f + 1, [] => cases he
  | f + 1, c :: rest =>
    have hc := hl c rfl
    unfold removeEmailsGo at he
    rw [if_pos hc, List.head?_cons] at he
    cases he
    exact hc

/-- The output of email removal admits no email match. -/
theorem removeEmailsGo_noEmail : ∀ (fuel : Nat) (l : List Char),
    noEmailMatch (removeEmailsGo fuel l) = true := by
  intro fuel
  induction fuel with
  | zero => intro l; rfl
  | succ f ih =>
    intro l
    match l with
    | [] => rfl
    | c :: rest =>
      unfold removeEmailsGo
      split_ifs with hc hint
      · exact noEmailMatch_cons_space hc _ (ih rest)
      · rw [List.nil_append]
        exact ih _
      · refine noEmailMatch_run_append _ _ (Bool.eq_false_iff.mpr hint) (ih _) ?_
        intro e he
        refine removeEmailsGo_head_space f _ ?_ e he
        intro d hd
        have hdw := head?_dropWhile_false (fun d => !isSpaceChar d) _ d hd
        simpa using hdw


/-- `noEmailMatch` is inherited by every suffix. -/
theorem noEmailMatch_suffix : ∀ (l m : List Char), List.IsSuffix m l →
    noEmailMatch l = true → noEmailMatch m = true := by
  intro l
  induction l with
  | nil =>
    intro m hm h
    cases List.suffix_nil.mp hm
    exact h
  | cons c rest ih =>
    intro m hm h
    rcases List.suffix_cons_iff.mp hm with rfl | hm'
    · exact h
    · exact ih m hm' (noEmailMatch_tail h)

/-- `noEmailMatch` is inherited by every initial segment. -/
theorem noEmailMatch_append_left : ∀ (w t : List Char),
    noEmailMatch (w ++ t) = true → noEmailMatch w = true := by
  intro w
  induction w with
  | nil => intro t h; rfl
  | cons a w' ih =>
    intro t h
    match w' with
    | [] => rfl
    | [b] => rfl
    | b :: c :: w₃ =>
      rw [List.cons_append, List.cons_append, List.cons_append] at h
      unfold noEmailMatch at h ⊢
      rw [Bool.and_eq_true] at h ⊢
      refine ⟨h.1, ?_⟩
      have := ih t (by
        rw [List.cons_append, List.cons_append]
        exact h.2)
      exact this

/-- Trimming preserves the absence of email matches. -/
theorem noEmailMatch_stripList (y : List Char) (h : noEmailMatch y = true) :
    noEmailMatch (stripList y) = true := by
  unfold stripList
  have h1 : noEmailMatch (y.dropWhile isSpaceChar) = true :=
    noEmailMatch_suffix y _ (List.dropWhile_suffix _) h
  have hsuf : List.IsSuffix
      ((y.dropWhile isSpaceChar).reverse.dropWhile isSpaceChar)
      ((y.dropWhile isSpaceChar).reverse) := List.dropWhile_suffix _
  obtain ⟨t, ht⟩ := hsuf
  have hpre : ((y.dropWhile isSpaceChar).reverse.dropWhile isSpaceChar).reverse
      ++ t.reverse = y.dropWhile isSpaceChar := by
    have hrev := congrArg List.reverse ht
    rw [List.reverse_append, List.reverse_reverse] at hrev
    exact hrev
  refine noEmailMatch_append_left _ t.reverse ?_
  rw [hpre]
  exact h1

/-- A non-space head of the collapsed output is the input's head. -/
theorem collapseGo_head_eq (fuel : Nat) (m : List Char) (d : Char)
    (h : (collapseGo fuel m).head? = some d) (hd : isSpaceChar d = false) :
    m.head? = some d := by
  match fuel, m with
  | 0, _ => cases h
  | f + 1, [] => cases h
  | f + 1, c :: rest =>
    unfold collapseGo at h
    split_ifs at h with hc
    · rw [List.head?_cons] at h
      cases h
      exact absurd hd (by decide)
    · rw [List.head?_cons] at h
      cases h
      rfl

/-- Whitespace collapse preserves the absence of email matches. -/
theorem collapseGo_noEmail : ∀ (fuel : Nat) (l : List Char),
    noEmailMatch l = true → noEmailMatch (collapseGo fuel l) = true := by
  intro fuel
  induction fuel with
  | zero => intro l h; rfl
  | succ f ih =>
    intro l h
    match l with
    | [] => rfl
    | c :: rest =>
      unfold collapseGo
      split_ifs with hc
      · exact noEmailMatch_cons_space (by decide) _
          (ih _ (noEmailMatch_suffix rest _ (List.dropWhile_suffix _)
            (noEmailMatch_tail h)))
      · have hrec : noEmailMatch (collapseGo f rest) = true :=
          ih rest (noEmailMatch_tail h)
        match hR : collapseGo f rest with
        | [] => rfl
        | [r₀] => rfl
        | r₀ :: r₁ :: out₂ =>
          unfold noEmailMatch
          rw [Bool.and_eq_true]
          refine ⟨?_, by rw [← hR]; exact hrec⟩
          by_cases hr₀ : r₀ = '@'
          · by_cases hcs : isSpaceChar c = true
            · simp [hcs]
            · by_cases hr₁ : isSpaceChar r₁ = true
              · simp [hr₁]
              · exfalso
                subst hr₀
                have hrh : rest.head? = some '@' :=
                  collapseGo_head_eq f rest '@' (by rw [hR]; rfl) (by decide)
                obtain ⟨rest₂, rfl⟩ : ∃ rest₂, rest = '@' :: rest₂ := by
                  cases rest with
                  | nil => cases hrh
                  | cons x xs =>
                    rw [List.head?_cons] at hrh
                    cases hrh
                    exact ⟨xs, rfl⟩
                match f, hR with
                | f' + 1, hR =>
                  unfold collapseGo at hR
                  rw [if_neg (by decide : ¬(isSpaceChar '@' = true))] at hR
                  rw [List.cons.injEq] at hR
                  have hr₁h : rest₂.head? = some r₁ :=
                    collapseGo_head_eq f' rest₂ r₁
                      (by rw [hR.2]; rfl) (Bool.eq_false_iff.mpr hr₁)
                  obtain ⟨rest₃, rfl⟩ : ∃ rest₃, rest₂ = r₁ :: rest₃ := by
                    cases rest₂ with
                    | nil => cases hr₁h
                    | cons x xs =>
                      rw [List.head?_cons] at hr₁h
                      cases hr₁h
                      exact ⟨xs, rfl⟩
                  unfold noEmailMatch at h
                  rw [Bool.and_eq_true] at h
                  have hw := h.1
                  simp only [bne_self_eq_false, Bool.false_or, Bool.or_eq_true] at hw
                  rcases hw with hw | hw
                  · exact hcs hw
                  · exact hr₁ hw
          · simp [bne_iff_ne, hr₀]

/-- Provenance of an '@' at the head of the output: if the output of HTML
removal begins with '@' followed by a non-space character, then the input
begins with '@' followed by a non-space character (HTML deletions start at
'<' and end at '>', both non-space). -/
def atProvenance (m out : List Char) : Prop :=
  out.head? = some '@' → ∀ d, out.tail.head? = some d → isSpaceChar d = false →
    m.head? = some '@' ∧ ∃ d', m.tail.head? = some d' ∧ isSpaceChar d' = false

/-- A head of the output of HTML removal comes from the input's head, and
verbatim so when the input head is whitespace. -/
theorem removeHtmlGo_head_provenance (fuel : Nat) (m : List Char) (d : Char)
    (h : (removeHtmlGo fuel m).head? = some d) :
    ∃ m₀, m.head? = some m₀ ∧ (isSpaceChar m₀ = true → d = m₀) := by
  match fuel, m with
  | 0, _ => cases h
  | f + 1, [] => cases h
  | f + 1, c :: rest =>
    unfold removeHtmlGo at h
    split_ifs at h with hc hp hlt
    · rw [List.head?_cons] at h
      cases h
      exact ⟨d, rfl, fun _ => rfl⟩
    · refine ⟨c, rfl, fun hsp => ?_⟩
      rw [hc] at hsp
      exact absurd hsp (by decide)
    · rw [List.head?_cons] at h
      cases h
      exact ⟨d, rfl, fun _ => rfl⟩
    · rw [List.head?_cons] at h
      cases h
      exact ⟨d, rfl, fun _ => rfl⟩

/-- Dropping as many elements as `takeWhile` keeps is `dropWhile`. -/
theorem drop_length_takeWhile (p : Char → Bool) :
    ∀ l : List Char, l.drop (l.takeWhile p).length = l.dropWhile p := by
  intro l
  induction l with
  | nil => rfl
  | cons c rest ih =>
    by_cases hp : p c
    · rw [List.takeWhile_cons_of_pos hp, List.dropWhile_cons_of_pos hp]
      simpa using ih
    · rw [List.takeWhile_cons_of_neg hp, List.dropWhile_cons_of_neg hp]
      rfl

/-- After the first '>'-free block, the input continues with '>'. -/
theorem rest_drop_takeWhile_gt (rest : List Char)
    (hlt : (rest.takeWhile fun d => !(d = '>')).length < rest.length) :
    rest.drop (rest.takeWhile fun d => !(d = '>')).length
      = '>' :: rest.drop ((rest.takeWhile fun d => !(d = '>')).length + 1) := by
  have happ := List.takeWhile_append_dropWhile (fun d => !(d = '>')) rest
  have hdrop : rest.drop (rest.takeWhile fun d => !(d = '>')).length
      = rest.dropWhile fun d => !(d = '>') := drop_length_takeWhile _ rest
  cases hdw : rest.dropWhile fun d => !(d = '>') with
  | nil =>
    exfalso
    rw [hdw, List.append_nil] at happ
    rw [happ] at hlt
    exact Nat.lt_irrefl _ hlt
  | cons d₀ tl =>
    have hd₀ : d₀ = '>' := by
      have := head?_dropWhile_false (fun d => !(d = '>')) rest d₀ (by rw [hdw]; rfl)
      simpa using this
    subst hd₀
    have htl : rest.drop ((rest.takeWhile fun d => !(d = '>')).length + 1) = tl := by
      have h1 : rest.drop ((rest.takeWhile fun d => !(d = '>')).length + 1)
          = (rest.drop (rest.takeWhile fun d => !(d = '>')).length).drop 1 := by
        rw [List.drop_drop]
      rw [h1, hdrop, hdw]
      rfl
    rw [hdrop, hdw, htl]

/-- Prepending a kept character to the output of HTML removal preserves
email-freedom and the provenance property. -/
theorem removeHtml_keep_cons (f : Nat) (c : Char) (rest : List Char)
    (h : noEmailMatch (c :: rest) = true)
    (hIH : noEmailMatch (removeHtmlGo f rest) = true ∧ atProvenance rest (removeHtmlGo f rest)) :
    noEmailMatch (c :: removeHtmlGo f rest) = true
      ∧ atProvenance (c :: rest) (c :: removeHtmlGo f rest) := by
  constructor
  · match hR : removeHtmlGo f rest with
    | [] => rfl
    | [r₀] => rfl
    | r₀ :: r₁ :: out₂ =>
      unfold noEmailMatch
      rw [Bool.and_eq_true]
      refine ⟨?_, by rw [← hR]; exact hIH.1⟩
      by_cases hr₀ : r₀ = '@'
      · by_cases hcs : isSpaceChar c = true
        · simp [hcs]
        · by_cases hr₁ : isSpaceChar r₁ = true
          · simp [hr₁]
          · exfalso
            subst hr₀
            obtain ⟨hrh, d', hd', hd'ns⟩ := hIH.2 (by rw [hR]; rfl) r₁
              (by rw [hR]; rfl) (Bool.eq_false_iff.mpr hr₁)
            obtain ⟨rest₂, rfl⟩ : ∃ rest₂, rest = '@' :: rest₂ := by
              cases rest with
              | nil => cases hrh
              | cons x xs =>
                rw [List.head?_cons] at hrh
                cases hrh
                exact ⟨xs, rfl⟩
            obtain ⟨rest₃, rfl⟩ : ∃ rest₃, rest₂ = d' :: rest₃ := by
              cases rest₂ with
              | nil => cases hd'
              | cons x xs =>
                rw [List.tail_cons, List.head?_cons] at hd'
                cases hd'
                exact ⟨xs, rfl⟩
            unfold noEmailMatch at h
            rw [Bool.and_eq_true] at h
            have hw := h.1
            simp only [bne_self_eq_false, Bool.false_or, Bool.or_eq_true] at hw
            rcases hw with hw | hw
            · exact hcs hw
            · rw [hw] at hd'ns
              exact Bool.noConfusion hd'ns
      · simp [bne_iff_ne, hr₀]
  · intro hh d ht hns
    rw [List.head?_cons] at hh
    have hc : c = '@' := by
      cases hh
      rfl
    rw [List.tail_cons] at ht
    obtain ⟨m₀, hm₀, hsp⟩ := removeHtmlGo_head_provenance f rest d ht
    refine ⟨by rw [List.head?_cons, hc], m₀, by rw [List.tail_cons]; exact hm₀, ?_⟩
    by_cases hm₀s : isSpaceChar m₀ = true
    · rw [← hsp hm₀s] at hm₀s
      rw [hm₀s] at hns
      exact Bool.noConfusion hns
    · exact Bool.eq_false_iff.mpr hm₀s

/-- HTML-tag removal preserves the absence of email matches, together with
the '@'-provenance property needed for the induction. -/
theorem removeHtmlGo_noEmail : ∀ (fuel : Nat) (l : List Char),
    noEmailMatch l = true →
    noEmailMatch (removeHtmlGo fuel l) = true
      ∧ atProvenance l (removeHtmlGo fuel l) := by
  intro fuel
  induction fuel with
  | zero =>
    intro l h
    exact ⟨rfl, fun hh => by cases hh⟩
  | succ f ih =>
    intro l h
    match l with
    | [] => exact ⟨rfl, fun hh => by cases hh⟩
    | c :: rest =>
      have hrest : noEmailMatch rest = true := noEmailMatch_tail h
      unfold removeHtmlGo
      split_ifs with hc hp hlt
      · exact removeHtml_keep_cons f c rest h (ih rest hrest)
      · -- a tag is deleted: the output is the recursion on the remainder
        have hsufr : List.IsSuffix
            (rest.drop ((rest.takeWhile fun d => !(d = '>')).length + 1)) rest :=
          List.drop_suffix _ rest
        have hsuf : List.IsSuffix
            (rest.drop ((rest.takeWhile fun d => !(d = '>')).length + 1)) (c :: rest) :=
          hsufr.trans (List.suffix_cons c rest)
        have hdropok : noEmailMatch
            (rest.drop ((rest.takeWhile fun d => !(d = '>')).length + 1)) = true :=
          noEmailMatch_suffix _ _ hsuf h
        refine ⟨(ih _ hdropok).1, ?_⟩
        intro hh d ht hns
        exfalso
        obtain ⟨hrh, d', hd', hd'ns⟩ := (ih _ hdropok).2 hh d ht hns
        have hgt := rest_drop_takeWhile_gt rest hlt
        have hsufgt : List.IsSuffix
            (rest.drop (rest.takeWhile fun d => !(d = '>')).length) (c :: rest) :=
          (List.drop_suffix _ rest).trans (List.suffix_cons c rest)
        have hne : noEmailMatch
            ('>' :: rest.drop ((rest.takeWhile fun d => !(d = '>')).length + 1)) = true := by
          rw [← hgt]
          exact noEmailMatch_suffix _ _ hsufgt h
        obtain ⟨q₂, hq₂⟩ : ∃ q₂,
            rest.drop ((rest.takeWhile fun d => !(d = '>')).length + 1) = '@' :: q₂ := by
          cases hqq : rest.drop ((rest.takeWhile fun d => !(d = '>')).length + 1) with
          | nil => rw [hqq] at hrh; cases hrh
          | cons x xs =>
            rw [hqq, List.head?_cons] at hrh
            cases hrh
            exact ⟨xs, rfl⟩
        obtain ⟨q₃, hq₃⟩ : ∃ q₃, q₂ = d' :: q₃ := by
          cases hqq : q₂ with
          | nil =>
            rw [hq₂, hqq, List.tail_cons] at hd'
            cases hd'
          | cons x xs =>
            rw [hq₂, hqq, List.tail_cons, List.head?_cons] at hd'
            cases hd'
            exact ⟨xs, rfl⟩
        rw [hq₂, hq₃] at hne
        unfold noEmailMatch at hne
        rw [Bool.and_eq_true] at hne
        have hw := hne.1
        simp only [bne_self_eq_false, Bool.false_or, Bool.or_eq_true] at hw
        rcases hw with hw | hw
        · exact absurd hw (by decide)
        · rw [hw] at hd'ns
          exact Bool.noConfusion hd'ns
      · exact removeHtml_keep_cons f c rest h (ih rest hrest)
      · exact removeHtml_keep_cons f c rest h (ih rest hrest)

/-- Variant B URL removal only deletes characters. -/
theorem removeUrlsPsGo_sublist : ∀ (fuel : Nat) (l : List Char),
    List.Sublist (removeUrlsPsGo fuel l) l := by
  intro fuel
  induction fuel with
  | zero => intro l; exact List.nil_sublist l
  | succ f ih =>
    intro l
    match l with
    | [] => exact List.Sublist.refl []
    | c :: rest =>
      unfold removeUrlsPsGo
      cases hm : matchPsUrl (c :: rest) with
      | some k => exact (ih _).trans (List.drop_sublist _ _)
      | none => exact List.Sublist.cons₂ c (ih rest)

/-- Email removal only deletes characters. -/
theorem removeEmailsGo_sublist : ∀ (fuel : Nat) (l : List Char),
    List.Sublist (removeEmailsGo fuel l) l := by
  intro fuel
  induction fuel with
  | zero => intro l; exact List.nil_sublist l
  | succ f ih =>
    intro l
    match l with
    | [] => exact List.Sublist.refl []
    | c :: rest =>
      unfold removeEmailsGo
      split_ifs with hc hint
      · exact List.Sublist.cons₂ c (ih rest)
      · rw [List.nil_append]
        exact (ih _).trans ((List.dropWhile_suffix _).sublist)
      · have h1 : List.Sublist
            (((c :: rest).takeWhile fun d => !isSpaceChar d)
              ++ removeEmailsGo f ((c :: rest).dropWhile fun d => !isSpaceChar d))
            (((c :: rest).takeWhile fun d => !isSpaceChar d)
              ++ ((c :: rest).dropWhile fun d => !isSpaceChar d)) :=
          List.Sublist.append_left (ih _) _
        rw [List.takeWhile_append_dropWhile] at h1
        exact h1

/-- No variant B URL match starts at '>'. -/
theorem matchPsUrl_gt (m : List Char) : matchPsUrl ('>' :: m) = none := by
  unfold matchPsUrl
  rw [if_neg, if_neg]
  · intro hEq
    have h2 := congrArg List.head? hEq
    rw [show (4 : Nat) = 3 + 1 from rfl, List.take_succ_cons, List.head?_cons] at h2
    exact absurd h2 (by decide)
  · intro hEq
    have h2 := congrArg List.head? hEq
    rw [show (4 : Nat) = 3 + 1 from rfl, List.take_succ_cons, List.head?_cons] at h2
    exact absurd h2 (by decide)

/-- Variant B URL removal preserves the absence of tag matches. -/
theorem removeUrlsPsGo_noTag : ∀ (fuel : Nat) (l : List Char),
    noTagMatch l = true → noTagMatch (removeUrlsPsGo fuel l) = true := by
  intro fuel
  induction fuel with
  | zero => intro l h; rfl
  | succ f ih =>
    intro l h
    match l with
    | [] => rfl
    | c :: rest =>
      unfold removeUrlsPsGo
      cases hm : matchPsUrl (c :: rest) with
      | some k =>
        exact ih _ (noTagMatch_suffix _ _ (List.drop_suffix _ _) h)
      | none =>
        unfold noTagMatch
        rw [Bool.and_eq_true]
        refine ⟨?_, ih rest (noTagMatch_tail h)⟩
        by_cases hlt : c = '<'
        · rw [if_pos hlt]
          have h1 : (!(decide ('>' ∈ rest)) || rest.head? == some '>') = true := by
            unfold noTagMatch at h
            rw [Bool.and_eq_true] at h
            have := h.1
            rw [if_pos hlt] at this
            exact this
          rw [Bool.or_eq_true] at h1
          rcases h1 with hl | hr
          · have hni : ¬('>' ∈ rest) := by
              intro hmem
              rw [decide_eq_true hmem] at hl
              exact Bool.noConfusion hl
            have hno : ¬('>' ∈ removeUrlsPsGo f rest) :=
              fun hmem => hni ((removeUrlsPsGo_sublist f rest).subset hmem)
            simp [hno]
          · match rest with
            | [] => exact Bool.noConfusion hr
            | d :: rest₂ =>
              have hd : d = '>' := by
                rw [List.head?_cons] at hr
                simpa using hr
              subst hd
              match f with
              | 0 => simp [removeUrlsPsGo]
              | f' + 1 =>
                unfold removeUrlsPsGo
                rw [matchPsUrl_gt]
                simp
        · rw [if_neg hlt]

/-- A head of the output of email removal is the input's head when the
input begins with whitespace. -/
theorem removeEmailsGo_head_eq (fuel : Nat) (m : List Char) (d : Char)
    (h : (removeEmailsGo fuel m).head? = some d)
    (hm : ∀ e, m.head? = some e → isSpaceChar e = true) : m.head? = some d := by
  match fuel, m with
  | 0, _ => cases h
  | f + 1, [] => cases h
  | f + 1, c :: rest =>
    unfold removeEmailsGo at h
    rw [if_pos (hm c rfl), List.head?_cons] at h
    cases h
    rfl

/-- `noTagMatch` transports across a common prefix when the appended tail
is replaced by one with fewer '>' characters and an agreeing head. -/
theorem noTagMatch_append_transport : ∀ (run X Y : List Char),
    ('>' ∈ Y → '>' ∈ X) → (∀ d, Y.head? = some d → X.head? = some d) →
    noTagMatch (run ++ X) = true → noTagMatch Y = true →
    noTagMatch (run ++ Y) = true := by
  intro run
  induction run with
  | nil => intro X Y hYX hhd hX hY; exact hY
  | cons c run' ih =>
    intro X Y hYX hhd hX hY
    rw [List.cons_append] at hX ⊢
    unfold noTagMatch at hX ⊢
    rw [Bool.and_eq_true] at hX ⊢
    refine ⟨?_, ih X Y hYX hhd hX.2 hY⟩
    by_cases hc : c = '<'
    · rw [if_pos hc] at hX ⊢
      have h1 := hX.1
      rw [Bool.or_eq_true] at h1
      rcases h1 with hl | hr
      · have hni : ¬('>' ∈ run' ++ X) := by
          intro hmem
          rw [decide_eq_true hmem] at hl
          exact Bool.noConfusion hl
        have hno : ¬('>' ∈ run' ++ Y) := by
          intro hmem
          rcases List.mem_append.mp hmem with hm | hm
          · exact hni (List.mem_append_left X hm)
          · exact hni (List.mem_append_right run' (hYX hm))
        simp [hno]
      · match run' with
        | d :: run₂ =>
          rw [List.cons_append, List.head?_cons] at hr
          rw [List.cons_append, Bool.or_eq_true]
          right
          rw [List.head?_cons]
          exact hr
        | [] =>
          rw [List.nil_append] at hr ⊢
          match Y with
          | [] => simp
          | y :: Y' =>
            have hy : X.head? = some y := hhd y rfl
            have : y = '>' := by
              rw [hy] at hr
              simpa using hr
            subst this
            simp
    · rw [if_neg hc] at hX ⊢

/-- Email removal preserves the absence of tag matches. -/
theorem removeEmailsGo_noTag : ∀ (fuel : Nat) (l : List Char),
    noTagMatch l = true → noTagMatch (removeEmailsGo fuel l) = true := by
  intro fuel
  induction fuel with
  | zero => intro l h; rfl
  | succ f ih =>
    intro l h
    match l with
    | [] => rfl
    | c :: rest =>
      unfold removeEmailsGo
      split_ifs with hc hint
      · unfold noTagMatch
        rw [Bool.and_eq_true]
        refine ⟨?_, ih rest (noTagMatch_tail h)⟩
        have hne : ¬(c = '<') := by
          intro he
          rw [he] at hc
          exact absurd hc (by decide)
        rw [if_neg hne]
      · rw [List.nil_append]
        exact ih _ (noTagMatch_suffix _ _ (List.dropWhile_suffix _) h)
      · refine noTagMatch_append_transport
          ((c :: rest).takeWhile fun d => !isSpaceChar d)
          ((c :: rest).dropWhile fun d => !isSpaceChar d)
          (removeEmailsGo f ((c :: rest).dropWhile fun d => !isSpaceChar d))
          ?_ ?_ ?_ ?_
        · exact fun hmem => (removeEmailsGo_sublist f _).subset hmem
        · intro d hd
          refine removeEmailsGo_head_eq f _ d hd ?_
          intro e he
          have := head?_dropWhile_false (fun d => !isSpaceChar d) _ e he
          simpa using this
        · rw [List.takeWhile_append_dropWhile]
          exact h
        · exact ih _ (noTagMatch_suffix _ _ (List.dropWhile_suffix _) h)

/-- `noPsUrl` is inherited by the tail. -/
theorem noPsUrl_tail {c : Char} {l : List Char} (h : noPsUrl (c :: l) = true) :
    noPsUrl l = true := by
  unfold noPsUrl at h
  rw [Bool.and_eq_true] at h
  exact h.2

/-- `noPsUrl` is inherited by every suffix. -/
theorem noPsUrl_suffix : ∀ (l m : List Char), List.IsSuffix m l →
    noPsUrl l = true → noPsUrl m = true := by
  intro l
  induction l with
  | nil =>
    intro m hm h
    cases List.suffix_nil.mp hm
    exact h
  | cons c rest ih =>
    intro m hm h
    rcases List.suffix_cons_iff.mp hm with rfl | hm'
    · exact h
    · exact ih m hm' (noPsUrl_tail h)

/-- No variant B URL match starts at a whitespace character. -/
theorem matchPsUrl_space (c : Char) (m : List Char) (hc : isSpaceChar c = true) :
    matchPsUrl (c :: m) = none := by
  unfold matchPsUrl
  rw [if_neg, if_neg]
  all_goals
    intro hEq
    have h2 := congrArg List.head? hEq
    rw [show (4 : Nat) = 3 + 1 from rfl, List.take_succ_cons, List.head?_cons] at h2
    rw [Option.some.inj h2] at hc
    exact absurd hc (by decide)

/-- The greedy `\S+` of a variant B URL match runs to the end of its
non-space run: the character right after the match, if any, is space. -/
theorem matchPsUrl_some_after (l : List Char) (k : Nat) (h : matchPsUrl l = some k) :
    ∀ e, (l.drop k).head? = some e → isSpaceChar e = true := by
  intro e he
  unfold matchPsUrl at h
  split_ifs at h with h1 h2 h3 h4
  all_goals
    first
    | exact Option.noConfusion h
    | (have hk := Option.some.inj h
       subst hk
       rw [← List.drop_drop, drop_length_takeWhile] at he
       have h5 := head?_dropWhile_false _ _ e he
       simpa using h5)

/-- If the input is empty or space-headed, so is the URL-pass output. -/
theorem removeUrlsPsGo_head_space (fuel : Nat) (m : List Char)
    (hm : ∀ e, m.head? = some e → isSpaceChar e = true) :
    ∀ d, (removeUrlsPsGo fuel m).head? = some d → isSpaceChar d = true := by
  intro d hd
  match fuel, m with
  | 0, _ => cases hd
  | f + 1, [] => cases hd
  | f + 1, c :: rest =>
    have hc := hm c rfl
    have hout : removeUrlsPsGo (f + 1) (c :: rest) = c :: removeUrlsPsGo f rest := by
      simp only [removeUrlsPsGo, matchPsUrl_space c rest hc]
    rw [hout, List.head?_cons] at hd
    cases hd
    exact hc

/-- A vanished non-space take means the head, if any, is space. -/
theorem takeWhile_nonspace_len0 (l : List Char)
    (h : (l.takeWhile fun d => !isSpaceChar d).length = 0) :
    ∀ e, l.head? = some e → isSpaceChar e = true := by
  intro e he
  match l with
  | [] => cases he
  | c :: rest =>
    rw [List.head?_cons] at he
    cases he
    by_cases hcs : isSpaceChar e = true
    · exact hcs
    · exfalso
      rw [@List.takeWhile_cons_of_pos Char (fun d => !isSpaceChar d) e rest
        (by simp [hcs])] at h
      simp at h

/-- Converse: a space (or absent) head makes the non-space take vanish. -/
theorem takeWhile_nonspace_len0' (l : List Char)
    (h : ∀ e, l.head? = some e → isSpaceChar e = true) :
    (l.takeWhile fun d => !isSpaceChar d).length = 0 := by
  match l with
  | [] => rfl
  | c :: rest =>
    have hc := h c rfl
    rw [List.takeWhile_cons_of_neg (by simp [hc])]
    rfl

/-- A non-space window of the URL-pass output is the input's window, and
once the input continues with space after it, so does the output. -/
theorem removeUrlsPsGo_window : ∀ (fuel : Nat) (m w : List Char),
    (∀ x ∈ w, isSpaceChar x = false) →
    (removeUrlsPsGo fuel m).take w.length = w →
    m.take w.length = w ∧
    ((∀ e, (m.drop w.length).head? = some e → isSpaceChar e = true) →
     ∀ d, ((removeUrlsPsGo fuel m).drop w.length).head? = some d →
       isSpaceChar d = true) := by
  intro fuel
  induction fuel with
  | zero =>
    intro m w hw ht
    rw [show removeUrlsPsGo 0 m = [] from rfl, List.take_nil] at ht
    cases ht
    exact ⟨rfl, fun _ d hd => by cases hd⟩
  | succ f ih =>
    intro m w hw ht
    match m with
    | [] =>
      rw [show removeUrlsPsGo (f + 1) ([] : List Char) = [] from rfl,
        List.take_nil] at ht
      cases ht
      exact ⟨rfl, fun _ d hd => by cases hd⟩
    | c :: rest =>
      cases hmm : matchPsUrl (c :: rest) with
      | some k =>
        have hout : removeUrlsPsGo (f + 1) (c :: rest)
            = removeUrlsPsGo f ((c :: rest).drop k) := by
          simp only [removeUrlsPsGo, hmm]
        have hsp : ∀ d, (removeUrlsPsGo (f + 1) (c :: rest)).head? = some d →
            isSpaceChar d = true := by
          rw [hout]
          exact removeUrlsPsGo_head_space f _ (matchPsUrl_some_after _ k hmm)
        match w with
        | [] => exact ⟨rfl, fun _ d hd => hsp d hd⟩
        | a :: w' =>
          exfalso
          have hhd : (removeUrlsPsGo (f + 1) (c :: rest)).head? = some a := by
            cases hq : removeUrlsPsGo (f + 1) (c :: rest) with
            | nil =>
              rw [hq, List.take_nil] at ht
              cases ht
            | cons o t =>
              rw [hq, List.length_cons, List.take_succ_cons, List.cons.injEq] at ht
              rw [List.head?_cons, ht.1]
          have h6 := hsp a hhd
          have h7 := hw a (List.mem_cons_self a w')
          rw [h6] at h7
          exact Bool.noConfusion h7
      | none =>
        have hout : removeUrlsPsGo (f + 1) (c :: rest)
            = c :: removeUrlsPsGo f rest := by
          simp only [removeUrlsPsGo, hmm]
        match w with
        | [] =>
          refine ⟨rfl, fun hsp d hd => ?_⟩
          rw [hout] at hd
          have hdc : some c = some d := hd
          cases hdc
          exact hsp c rfl
        | a :: w' =>
          rw [hout, List.length_cons, List.take_succ_cons, List.cons.injEq] at ht
          obtain ⟨hca, htw⟩ := ht
          have IH := ih rest w' (fun x hx => hw x (List.mem_cons_of_mem a hx)) htw
          constructor
          · rw [List.length_cons, List.take_succ_cons, IH.1, hca]
          · intro hsp d hd
            rw [hout, List.length_cons, List.drop_succ_cons] at hd
            refine IH.2 ?_ d hd
            intro e he
            refine hsp e ?_
            rw [List.length_cons, List.drop_succ_cons]
            exact he

/-- A four-character non-space window matched against a space-headed tail
lies entirely in the front list. -/
theorem take4_append_space_head (r Z w : List Char) (hw4 : w.length = 4)
    (hwn : ∀ x ∈ w, isSpaceChar x = false)
    (hZ : ∀ d, Z.head? = some d → isSpaceChar d = true)
    (h : (r ++ Z).take 4 = w) : r.take 4 = w ∧ 4 ≤ r.length := by
  by_cases hlen : 4 ≤ r.length
  · rw [List.take_append_of_le_length hlen] at h
    exact ⟨h, hlen⟩
  · exfalso
    push_neg at hlen
    cases Z with
    | nil =>
      rw [List.append_nil] at h
      have h2 := congrArg List.length h
      rw [List.length_take, hw4] at h2
      have h3 := min_eq_left_iff.mp h2
      omega
    | cons z Z' =>
      have hzs : isSpaceChar z = true := hZ z rfl
      rw [List.take_append_eq_append_take] at h
      have h41 : 4 - r.length = (4 - r.length - 1) + 1 := by omega
      rw [h41, List.take_succ_cons] at h
      have hzmem : z ∈ w := by
        rw [← h]
        exact List.mem_append_right _ (List.mem_cons_self z _)
      have h5 := hwn z hzmem
      rw [hzs] at h5
      exact Bool.noConfusion h5

/-- If a non-space run followed by a space-headed tail has no URL match,
the run has length exactly four when its first four characters are a URL
literal.  Here stated via the vanished take-while after the window. -/
theorem run_len_four_of_stop (r X : List Char)
    (hr : ∀ x ∈ r, isSpaceChar x = false) (hrlen : 4 ≤ r.length)
    (hl0 : (((r ++ X).drop 4).takeWhile fun d => !isSpaceChar d).length = 0) :
    r.length = 4 := by
  by_contra hne4
  have hlt : 4 < r.length := lt_of_le_of_ne hrlen (fun he => hne4 he.symm)
  rw [List.drop_append_of_le_length hrlen] at hl0
  cases hq : r.drop 4 with
  | nil =>
    have h2 := congrArg List.length hq
    rw [List.length_drop] at h2
    simp at h2
    omega
  | cons h0 t =>
    have h0ns : isSpaceChar h0 = false :=
      hr h0 ((List.drop_sublist 4 r).subset (by rw [hq]; exact List.mem_cons_self h0 t))
    rw [hq, List.cons_append,
      @List.takeWhile_cons_of_pos Char (fun d => !isSpaceChar d) h0 (t ++ X)
        (by simp [h0ns])] at hl0
    simp at hl0

/-- The URL matcher ignores what follows an all-non-space front list once
the tail is space-headed: a non-match stays a non-match when the tail is
replaced by another space-headed tail. -/
theorem matchPsUrl_append_transport (r X Y : List Char)
    (hr : ∀ x ∈ r, isSpaceChar x = false)
    (hY : ∀ d, Y.head? = some d → isSpaceChar d = true)
    (hn : matchPsUrl (r ++ X) = none) : matchPsUrl (r ++ Y) = none := by
  by_cases h4 : (r ++ Y).take 4 = "http".toList
  · obtain ⟨hr4, hrlen⟩ :=
      take4_append_space_head r Y "http".toList rfl (by decide) hY h4
    have hX4 : (r ++ X).take 4 = "http".toList := by
      rw [List.take_append_of_le_length hrlen, hr4]
    unfold matchPsUrl at hn
    rw [if_pos hX4] at hn
    have hl0 : (((r ++ X).drop 4).takeWhile fun d => !isSpaceChar d).length = 0 := by
      by_contra hne
      rw [if_neg hne] at hn
      exact Option.noConfusion hn
    have h44 := run_len_four_of_stop r X hr hrlen hl0
    have hdY : (r ++ Y).drop 4 = Y := by
      rw [List.drop_append_of_le_length hrlen, List.drop_eq_nil_of_le (by omega),
        List.nil_append]
    unfold matchPsUrl
    rw [if_pos h4, hdY, if_pos (takeWhile_nonspace_len0' Y hY)]
  · by_cases hw4 : (r ++ Y).take 4 = "www.".toList
    · obtain ⟨hr4, hrlen⟩ :=
        take4_append_space_head r Y "www.".toList rfl (by decide) hY hw4
      have hX4 : (r ++ X).take 4 = "www.".toList := by
        rw [List.take_append_of_le_length hrlen, hr4]
      have hXn4 : ¬((r ++ X).take 4 = "http".toList) := by
        rw [hX4]
        decide
      unfold matchPsUrl at hn
      rw [if_neg hXn4, if_pos hX4] at hn
      have hl0 : (((r ++ X).drop 4).takeWhile fun d => !isSpaceChar d).length = 0 := by
        by_contra hne
        rw [if_neg hne] at hn
        exact Option.noConfusion hn
      have h44 := run_len_four_of_stop r X hr hrlen hl0
      have hdY : (r ++ Y).drop 4 = Y := by
        rw [List.drop_append_of_le_length hrlen, List.drop_eq_nil_of_le (by omega),
          List.nil_append]
      unfold matchPsUrl
      rw [if_neg h4, if_pos hw4, hdY, if_pos (takeWhile_nonspace_len0' Y hY)]
    · unfold matchPsUrl
      rw [if_neg h4, if_neg hw4]

/-- `noPsUrl` transports across an all-non-space front list when the
space-headed tail is replaced by another space-headed, URL-free tail. -/
theorem noPsUrl_append_transport : ∀ (run X Y : List Char),
    (∀ x ∈ run, isSpaceChar x = false) →
    (∀ d, Y.head? = some d → isSpaceChar d = true) →
    noPsUrl (run ++ X) = true → noPsUrl Y = true → noPsUrl (run ++ Y) = true := by
  intro run
  induction run with
  | nil => intro X Y _ _ _ hYok; exact hYok
  | cons a run' ih =>
    intro X Y hns hY hX hYok
    rw [List.cons_append] at hX ⊢
    unfold noPsUrl at hX ⊢
    rw [Bool.and_eq_true] at hX ⊢
    refine ⟨?_, ih X Y (fun x hx => hns x (List.mem_cons_of_mem a hx)) hY hX.2 hYok⟩
    rw [Option.isNone_iff_eq_none, ← List.cons_append]
    exact matchPsUrl_append_transport (a :: run') X Y hns hY
      (by rw [List.cons_append]; exact Option.isNone_iff_eq_none.mp hX.1)

/-- Variant B URL removal is self-correcting: its output contains no
variant B URL match at any position. -/
theorem removeUrlsPsGo_noUrl : ∀ (fuel : Nat) (l : List Char),
    noPsUrl (removeUrlsPsGo fuel l) = true := by
  intro fuel
  induction fuel with
  | zero => intro l; rfl
  | succ f ih =>
    intro l
    match l with
    | [] => rfl
    | c :: rest =>
      cases hmm : matchPsUrl (c :: rest) with
      | some k =>
        have hout : removeUrlsPsGo (f + 1) (c :: rest)
            = removeUrlsPsGo f ((c :: rest).drop k) := by
          simp only [removeUrlsPsGo, hmm]
        rw [hout]
        exact ih _
      | none =>
        have hout : removeUrlsPsGo (f + 1) (c :: rest)
            = c :: removeUrlsPsGo f rest := by
          simp only [removeUrlsPsGo, hmm]
        rw [hout]
        unfold noPsUrl
        rw [Bool.and_eq_true]
        refine ⟨?_, ih rest⟩
        rw [Option.isNone_iff_eq_none]
        by_cases h4 : (c :: removeUrlsPsGo f rest).take 4 = "http".toList
        · have hwin := removeUrlsPsGo_window (f + 1) (c :: rest) "http".toList
            (by decide) (by rw [hout]; exact h4)
          obtain ⟨hm4, htr⟩ := hwin
          have hm4' : (c :: rest).take 4 = "http".toList := hm4
          have hmafter : ∀ e, ((c :: rest).drop 4).head? = some e →
              isSpaceChar e = true := by
            unfold matchPsUrl at hmm
            rw [if_pos hm4'] at hmm
            have hl0 : (((c :: rest).drop 4).takeWhile
                fun d => !isSpaceChar d).length = 0 := by
              by_contra hne
              rw [if_neg hne] at hmm
              exact Option.noConfusion hmm
            exact takeWhile_nonspace_len0 _ hl0
          have houtafter : ∀ d, ((c :: removeUrlsPsGo f rest).drop 4).head? = some d →
              isSpaceChar d = true := by
            have h5 := htr (fun e he => hmafter e he)
            rw [hout] at h5
            exact h5
          unfold matchPsUrl
          rw [if_pos h4, if_pos (takeWhile_nonspace_len0' _ houtafter)]
        · by_cases hw4 : (c :: removeUrlsPsGo f rest).take 4 = "www.".toList
          · have hwin := removeUrlsPsGo_window (f + 1) (c :: rest) "www.".toList
              (by decide) (by rw [hout]; exact hw4)
            obtain ⟨hm4, htr⟩ := hwin
            have hm4' : (c :: rest).take 4 = "www.".toList := hm4
            have hnh : ¬((c :: rest).take 4 = "http".toList) := by
              rw [hm4']
              decide
            have hmafter : ∀ e, ((c :: rest).drop 4).head? = some e →
                isSpaceChar e = true := by
              unfold matchPsUrl at hmm
              rw [if_neg hnh, if_pos hm4'] at hmm
              have hl0 : (((c :: rest).drop 4).takeWhile
                  fun d => !isSpaceChar d).length = 0 := by
                by_contra hne
                rw [if_neg hne] at hmm
                exact Option.noConfusion hmm
              exact takeWhile_nonspace_len0 _ hl0
            have houtafter : ∀ d, ((c :: removeUrlsPsGo f rest).drop 4).head? = some d →
                isSpaceChar d = true := by
              have h5 := htr (fun e he => hmafter e he)
              rw [hout] at h5
              exact h5
            unfold matchPsUrl
            rw [if_neg h4, if_pos hw4, if_pos (takeWhile_nonspace_len0' _ houtafter)]
          · unfold matchPsUrl
            rw [if_neg h4, if_neg hw4]

/-- Email removal deletes whole maximal non-space runs only, so it cannot
create a variant B URL match. -/
theorem removeEmailsGo_noUrl : ∀ (fuel : Nat) (l : List Char),
    noPsUrl l = true → noPsUrl (removeEmailsGo fuel l) = true := by
  intro fuel
  induction fuel with
  | zero => intro l h; rfl
  | succ f ih =>
    intro l h
    match l with
    | [] => rfl
    | c :: rest =>
      unfold removeEmailsGo
      split_ifs with hc hint
      · unfold noPsUrl
        rw [Bool.and_eq_true]
        refine ⟨?_, ih rest (noPsUrl_tail h)⟩
        rw [Option.isNone_iff_eq_none]
        exact matchPsUrl_space c _ hc
      · rw [List.nil_append]
        exact ih _ (noPsUrl_suffix _ _ (List.dropWhile_suffix _) h)
      · refine noPsUrl_append_transport
          ((c :: rest).takeWhile fun d => !isSpaceChar d)
          ((c :: rest).dropWhile fun d => !isSpaceChar d)
          (removeEmailsGo f ((c :: rest).dropWhile fun d => !isSpaceChar d))
          ?_ ?_ ?_ ?_
        · intro x hx
          have h9 := List.mem_takeWhile_imp hx
          simpa using h9
        · intro d hd
          have hts : ∀ e, ((c :: rest).dropWhile fun d => !isSpaceChar d).head? = some e →
              isSpaceChar e = true := by
            intro e he
            have h9 := head?_dropWhile_false (fun d => !isSpaceChar d) _ e he
            simpa using h9
          exact hts d (removeEmailsGo_head_eq f _ d hd hts)
        · rw [List.takeWhile_append_dropWhile]
          exact h
        · exact ih _ (noPsUrl_suffix _ _ (List.dropWhile_suffix _) h)

/-- C5 amended: variant A's `clean_text` applies the rules in the order
URLs, emails, HTML tags, whitespace collapse, trim, and for every input
string its output contains no run of two or more consecutive whitespace
characters, no leading or trailing whitespace, no HTML-tag match and no
email match.  Variant B's `preprocess_text` collapses and trims first and
strips patterns afterwards, so its output can retain whitespace runs and
leading/trailing whitespace, but its final email-removal pass still
guarantees the output contains no email match; because HTML removal runs
before URL and email removal, and those passes only delete in ways that
cannot re-create a tag, the output contains no HTML-tag match; and because
its URL pass is self-correcting (every `http\S+|www\.\S+` match extends to
its run's end) and the later email pass deletes whole non-space runs only,
the output contains no match of the code's URL pattern.  (In variant A, because
HTML removal runs after URL removal, tag removal can splice together a URL
that survives in the output — that failure and variant B's whitespace
failure are exhibited by the counterexample.) -/
theorem normalizer_postconditions (s : String) :
    noTwoSpaces (clean_text s).toList
    ∧ (∀ c, (clean_text s).toList.head? = some c → isSpaceChar c = false)
    ∧ (∀ c, (clean_text s).toList.getLast? = some c → isSpaceChar c = false)
    ∧ noTagMatch (clean_text s).toList = true
    ∧ noEmailMatch (clean_text s).toList = true
    ∧ noEmailMatch (preprocess_text s).toList = true
    ∧ noTagMatch (preprocess_text s).toList = true
    ∧ noPsUrl (preprocess_text s).toList = true :=
  ⟨stripList_chain _ (collapseGo_chain _ _),
   fun c h => stripList_head _ c h,
   fun c h => stripList_getLast _ c h,
   noTagMatch_stripList _ (collapseGo_noTag _ _ (removeHtmlGo_noTag _ _)),
   noEmailMatch_stripList _ (collapseGo_noEmail _ _
     (removeHtmlGo_noEmail _ _ (removeEmailsGo_noEmail _ _)).1),
   removeEmailsGo_noEmail _ _,
   removeEmailsGo_noTag _ _ (removeUrlsPsGo_noTag _ _ (removeHtmlGo_noTag _ _)),
   removeEmailsGo_noUrl _ _ (removeUrlsPsGo_noUrl _ _)⟩

/-- Witness for C5: the postcondition theorem applied to concrete strings;
"  x  y " cleans to "x y" (whose head is the non-space 'x'), and
"a@b c" preprocesses to " c" with the email token removed. -/
theorem normalizer_postconditions_witness :
    clean_text "  x  y " = "x y" ∧ isSpaceChar 'x' = false
    ∧ preprocess_text "a@b c" = " c" := by
  have h := normalizer_postconditions "  x  y "
  exact ⟨rfl, h.2.1 'x' rfl, rfl⟩

